import Mathlib

/-!
# Verification of pytransact core algorithms

A shallow embedding of the parts of `pytransact` (a transactional object
layer over a document database) that the checked properties talk about:

* `pytransact/mongo.py` — the `retry` decorator wrapping storage calls;
* `pytransact/object/attribute.py` — value coercion for the `Int` kind;
* `pytransact/commit.py` — `CommitContext.register`, `CreateToi.operate`'s
  handling of supplied read-only/computed attributes, the relation fix-up
  (`updateRelations` / `runCommit`), the lock discipline of
  `CommitContext.commit`, and the conflict-retry protocol
  (`rerunCommit` / `processCommits`);
* `pytransact/queryops.py` — the glob-to-regex compiler `makeRe` and the
  query operators' `mongo()` translations;
* `pytransact/query.py` — `Query.mongo()`;
* `pytransact/diff.py` — `diff_opcodes` / `apply_opcodes` (together with the
  `difflib.SequenceMatcher` machinery they build on).

Python dictionaries are modelled as insertion-ordered association lists,
machine-level Python values by dedicated inductive types, and fallible code
by `Except`.  Each definition follows the corresponding Python source; the
theorems at the end of the file state and settle the checked claims.
-/

deriving instance DecidableEq for Except

namespace PyTransact

/-! ## Storage adapter retry (`pytransact/mongo.py`, `retry`) -/

/-- Outcome of one underlying call of a `retry`-wrapped storage function:
it either returns a value, raises `pymongo.errors.AutoReconnect`
(the transient error the decorator catches), or raises some other error. -/
inductive CallOutcome (α ε : Type) where
  | ok (v : α)
  | autoReconnect
  | fatal (e : ε)
deriving DecidableEq, Repr

/-- Result of running the whole retry loop.  `autoReconnect` is the
outcome the `raise exc` after the loop is written to produce
(re-raising the caught transient error); `unboundLocalError` is what
that statement actually raises under Python 3, where the
`except ... as exc` binding is deleted at the end of the except suite
(PEP 3110), leaving `exc` unbound when the loop exhausts. -/
inductive RetryResult (α ε : Type) where
  | ok (v : α)
  | autoReconnect
  | unboundLocalError
  | fatal (e : ε)
deriving DecidableEq, Repr

/-- The backoff schedule of `retry`: `for wait in (0.0, 0.1, 0.5, 1, 2, 5, 5, 5, 5)`.
The float constants are represented exactly as rationals. -/
def retryWaits : List ℚ := [0, 1/10, 1/2, 1, 2, 5, 5, 5, 5]

/-- One pass of the retry loop of `mongo.retry`, folded over the remaining
backoff schedule.  `attempts n` is the outcome of the `n`-th underlying
call (0-based).  Returns the final result together with the list of
`time.sleep` durations performed.  A successful call returns immediately;
an `AutoReconnect` sleeps the scheduled wait and retries; any other
exception propagates at once (the `except` clause catches only
`AutoReconnect`).  When the schedule is exhausted, `raise exc` after the
loop (`mongo.py` line 47) executes — but the codebase is Python-3-only
(`metaclass=` class headers), and Python 3 deletes the
`except AutoReconnect as exc` binding at the end of each except suite,
so `exc` is unbound there and the statement raises `UnboundLocalError`
instead of the transient error. -/
def retryLoop (attempts : Nat → CallOutcome α ε) : Nat → List ℚ →
    RetryResult α ε × List ℚ
  | _, [] => (.unboundLocalError, [])
  | n, wait :: rest =>
    match attempts n with
    | .ok v => (.ok v, [])
    | .fatal e => (.fatal e, [])
    | .autoReconnect =>
      let (res, sleeps) := retryLoop attempts (n + 1) rest
      (res, wait :: sleeps)

/-- `mongo.retry`: run the wrapped call with the fixed backoff schedule. -/
def retryRun (attempts : Nat → CallOutcome α ε) : RetryResult α ε × List ℚ :=
  retryLoop attempts 0 retryWaits

/-! ## Int value coercion (`pytransact/object/attribute.py`, `Int.coerceValue`) -/

/-- The Python values an attribute kind may be asked to coerce.  Python
floats are represented exactly as rationals (every IEEE double is a
rational, and `int()` on a float is exact truncation toward zero). -/
inductive PyVal where
  | vint (n : ℤ)
  | vbool (b : Bool)
  | vfloat (q : ℚ)
  | vstr (s : String)
  | vnone
deriving DecidableEq, Repr

/-- The error raised by `Int.coerceValue` on failure
(`exceptions.IntValueError`). -/
inductive CoerceError where
  | intValueError (v : PyVal)
deriving DecidableEq, Repr

/-- Python's `int(<str>)`: optional surrounding spaces, an optional sign,
then a non-empty digit string; anything else raises `ValueError`.
(Underscore separators are not modelled.) -/
def pyIntOfDigits : List Char → Option ℤ
  | [] => none
  | cs =>
    if cs.all Char.isDigit then
      some (cs.foldl (fun acc c => acc * 10 + (c.toNat - '0'.toNat : ℤ)) 0)
    else none

/-- Python's `int(<value>)` builtin as used by `Int.coerceValue`:
ints are returned as-is, bools become 0/1, floats are truncated toward
zero, strings are parsed as (optionally signed) integer literals, and
everything else raises. -/
def pyInt : PyVal → Option ℤ
  | .vint n => some n
  | .vbool b => some (if b then 1 else 0)
  | .vfloat q => some (Int.tdiv q.num (q.den : ℤ))
  | .vstr s =>
    let cs := s.toList.dropWhile (· = ' ') |>.reverse.dropWhile (· = ' ') |>.reverse
    match cs with
    | '-' :: rest => (pyIntOfDigits rest).map (fun n => -n)
    | '+' :: rest => pyIntOfDigits rest
    | rest => pyIntOfDigits rest
  | .vnone => none

namespace Int'

/-- `Int.coerceValue`: `try: return int(val) except: raise IntValueError(val)`. -/
def coerceValue (val : PyVal) : Except CoerceError PyVal :=
  match pyInt val with
  | some n => .ok (.vint n)
  | none => .error (.intValueError val)

end Int'

/-! ## `CommitContext.register` (`pytransact/commit.py`) -/

/-- The three bookkeeping maps of a commit context that `register`
maintains, reduced to their key sets (the claim is about key membership;
`Finset ℕ` stands for the Python dict keyed by toi id). -/
structure RegState where
  newTois : Finset ℕ
  changedTois : Finset ℕ
  deletedTois : Finset ℕ
deriving DecidableEq

/-- `CommitContext._clear`: all three maps start empty. -/
def RegState.clear : RegState := ⟨∅, ∅, ∅⟩

/-- `CommitContext.register(toi)`, keyed on `toid = toi.id[0]` and the
`toi._deleted` flag.  Deleted tois are dropped from `newTois` (without
entering `deletedTois`), or moved from `changedTois` into `deletedTois`;
non-deleted tois enter `changedTois` only when absent from both
`newTois` and `changedTois`. -/
def RegState.register (s : RegState) (toid : ℕ) (deleted : Bool) : RegState :=
  if deleted then
    if toid ∈ s.deletedTois then s
    else if toid ∈ s.newTois then
      { s with newTois := s.newTois.erase toid }
    else
      { s with changedTois := s.changedTois.erase toid,
               deletedTois := insert toid s.deletedTois }
  else
    if toid ∉ s.newTois ∧ toid ∉ s.changedTois then
      { s with changedTois := insert toid s.changedTois }
    else s

/-- Pairwise disjointness of the three maps. -/
def RegState.PairwiseDisjoint (s : RegState) : Prop :=
  Disjoint s.newTois s.changedTois ∧ Disjoint s.newTois s.deletedTois ∧
    Disjoint s.changedTois s.deletedTois

instance (s : RegState) : Decidable s.PairwiseDisjoint := by
  unfold RegState.PairwiseDisjoint
  infer_instance

/-! ## `CreateToi.operate`: supplied read-only / computed attributes
(`pytransact/commit.py`) -/

/-- The slice of an attribute descriptor that the supplied-attribute loop
of `CreateToi.operate` consults: its name, the `computed` flag and the
(pre) `ReadOnly` property. -/
structure AttrDesc where
  name : String
  computed : Bool
  readOnly : Bool
deriving DecidableEq, Repr

/-- The errors the loop can raise: `cRuntimeError` for a supplied
read-only/computed attribute, `cAttrNameError` when `toc._attributes[...]`
misses, and a value error bubbling out of `coerceValueList`. -/
inductive CreateErr (ε : Type) where
  | runtimeError (attrName : String)
  | attrNameError (attrName : String)
  | valueError (e : ε)
deriving DecidableEq, Repr

/-- The first loop of `CreateToi.operate` (`for attrName, value in
list(self.attrData.items())`): a supplied attribute that is computed or
(pre-)read-only raises `cRuntimeError` when its supplied value is truthy
(a non-empty list) and is deleted from `attrData` otherwise; any other
supplied attribute is passed through `coerceValueList`.  (The
toi-reference branch resolving referenced ids is outside this model; the
per-element coercion is the `coerce` parameter.)  Returns the resulting
`attrData`. -/
def coerceListAux (coerce : α → Except ε α) : List α → ℕ → List α × List (ℕ × ε)
  | [], _ => ([], [])
  | v :: rest, i =>
    let p := coerceListAux coerce rest (i + 1)
    match coerce v with
    | .ok r => (r :: p.1, p.2)
    | .error e => (p.1, (i, e) :: p.2)

/-- `Attribute.coerceValueList`: coerce every element, accumulating
per-index errors; any error raises the bundle (`AttrValueError` around a
`ValueErrorList`), otherwise the coerced list is returned. -/
def coerceValueList (coerce : α → Except ε α) (vlist : List α) :
    Except (List (ℕ × ε)) (List α) :=
  let p := coerceListAux coerce vlist 0
  if p.2.isEmpty then .ok p.1 else .error p.2

def createToiFilterAux (attrs : List AttrDesc) (coerce : AttrDesc → α → Except ε α) :
    List (String × List α) → List (String × List α) →
      Except (CreateErr (List (ℕ × ε))) (List (String × List α))
  | [], acc => .ok acc
  | (n, vs) :: rest, acc =>
    match attrs.find? (fun a => a.name = n) with
    | none => .error (.attrNameError n)
    | some attr =>
      if attr.computed || attr.readOnly then
        if !vs.isEmpty then .error (.runtimeError attr.name)
        else createToiFilterAux attrs coerce rest acc
      else
        match coerceValueList (coerce attr) vs with
        | .error es => .error (.valueError es)
        | .ok v => createToiFilterAux attrs coerce rest (acc ++ [(n, v)])

/-- The supplied-attribute pass of `CreateToi.operate`, starting from an
empty output dict. -/
def createToiFilterAttrs (attrs : List AttrDesc) (coerce : AttrDesc → α → Except ε α)
    (attrData : List (String × List α)) :
    Except (CreateErr (List (ℕ × ε))) (List (String × List α)) :=
  createToiFilterAux attrs coerce attrData []

/-! ## Lock discipline of `CommitContext.commit` (`pytransact/commit.py`) -/

/-- A document of the instance (`tois`) collection, reduced to the parts
`commit` touches: its id, an opaque attribute payload, and the
`_handled_by` lock field (absent = `None`). -/
structure ToiDoc (β : Type) where
  id : ℕ
  attrs : β
  handledBy : Option ℕ
deriving DecidableEq, Repr

/-- The instance collection. -/
abbrev ToiStore (β : Type) := List (ToiDoc β)

/-- The error outcomes a commit attempt can produce. -/
inductive CommitErr where
  | commitConflict
  | toisLocked
  | bulkWriteError
  | otherError
deriving DecidableEq, Repr

/-- `CommitContext._lockTois`: atomically `$set _handled_by := ctx` on
every document whose id is in `toids` and whose `_handled_by` is absent.
If fewer documents than `|toids|` were affected the commit raises
`CommitConflict` when some id is missing altogether and `ToisLocked`
otherwise.  The `update_many` takes effect on the store even when the
length check then raises, so the updated store is returned alongside the
outcome. -/
def lockTois (ctx : ℕ) (toids : List ℕ) (store : ToiStore β) :
    Except CommitErr Unit × ToiStore β :=
  let store' := store.map (fun d =>
    if d.id ∈ toids ∧ d.handledBy = none then { d with handledBy := some ctx } else d)
  let affected := (store'.filter (fun d => d.id ∈ toids ∧ d.handledBy = some ctx)).length
  if affected = toids.length then (.ok (), store')
  else if (store'.filter (fun d => d.id ∈ toids)).length ≠ toids.length then
    (.error .commitConflict, store')
  else (.error .toisLocked, store')

/-- `CommitContext._unlockTois`: `$unset _handled_by` on every document
with `_handled_by = ctx`. -/
def unlockTois (ctx : ℕ) (store : ToiStore β) : ToiStore β :=
  store.map (fun d => if d.handledBy = some ctx then { d with handledBy := none } else d)

/-- The body of `CommitContext.commit` between the lock and the `finally`:
the baseline conflict check over the changed tois' diffs, the single bulk
write (upserts for new tois, `$set` updates for changed ones, one bulk
delete for the removed ids) and the blob reference updates.  The parts
whose own logic is not under scrutiny here enter as parameters:
`conflict` is the outcome of `DiffTOI.diffsOld` over the changed tois,
`newDocs`/`setAttrs` the per-document effect of the bulk write, and
`bulkErr`/`otherErr` model a `BulkWriteError` or any other exception
raised mid-body. -/
def commitBody (conflict : Bool) (newDocs : List (ToiDoc β))
    (setAttrs : ℕ → β → β) (changedIds deletedIds : List ℕ)
    (bulkErr : Bool) (otherErr : Bool) (store : ToiStore β) :
    Except CommitErr (ToiStore β) := do
  if conflict then throw .commitConflict
  if bulkErr then throw .bulkWriteError
  let store := store.map (fun d =>
    if d.id ∈ changedIds then { d with attrs := setAttrs d.id d.attrs } else d)
  let store := store ++ newDocs
  let store := store.filter (fun d => d.id ∉ deletedIds)
  if otherErr then throw .otherError
  pure store

/-- `CommitContext.commit`: lock, run the body, and unlock in `finally` —
the unlock runs on the state reached so far whether the body returned or
raised. -/
def commitAttempt (ctx : ℕ) (affected : List ℕ) (conflict : Bool)
    (newDocs : List (ToiDoc β)) (setAttrs : ℕ → β → β)
    (changedIds deletedIds : List ℕ) (bulkErr otherErr : Bool)
    (store : ToiStore β) : Except CommitErr Unit × ToiStore β :=
  match lockTois ctx affected store with
  | (.error e, partial') => (.error e, unlockTois ctx partial')
  | (.ok (), locked) =>
    match commitBody conflict newDocs setAttrs changedIds deletedIds
        bulkErr otherErr locked with
    | .error e => (.error e, unlockTois ctx locked)
    | .ok final => (.ok (), unlockTois ctx final)

/-! ## Conflict retry (`pytransact/commit.py`, `rerunCommit` /
`processCommits`) -/

/-- `state` of a commit record: `new`, `done` or `failed`. -/
inductive CommitState where
  | new
  | done
  | failed
deriving DecidableEq, Repr

/-- A document of the `commits` collection, with the fields the retry
protocol reads: `op` is the operation wire type, `ρ` the result type,
`ε` the client-error type. -/
structure CommitRec (op ρ ε : Type) where
  id : ℕ
  handledBy : Option ℕ
  operations : List op
  user : ℕ
  interested : Option ℕ
  generation : ℕ
  results : List ρ
  error : Option ε
  state : CommitState
deriving DecidableEq, Repr

/-- `CommitContext.createCommit`: build a commit record handled by the
creating context; an error outcome keeps the error and leaves the results
empty, a success outcome records the results. -/
def createCommit (ctxId commitId : ℕ) (operations : List op) (results : List ρ)
    (error : Option ε) (user : ℕ) (interested : Option ℕ) (generation : ℕ) :
    CommitRec op ρ ε :=
  match error with
  | some e =>
    ⟨commitId, some ctxId, operations, user, interested, generation, [], some e, .new⟩
  | none =>
    ⟨commitId, some ctxId, operations, user, interested, generation, results, none, .new⟩

/-- `CommitContext.runCommit(operations, interested, processCommits=False,
generation)`: run the operations (`exec` stands for the per-operation
`checkPermissions`/`operate` work and the relation fix-up) and create the
commit record.  A `ClientError` escaping an operation produces an error
record — the source calls `createCommit` without a `generation` argument
there, so the error record carries the default generation 0. -/
def runCommitRecord (exec : List op → Except ε (List ρ)) (ctxId commitId : ℕ)
    (user : ℕ) (operations : List op) (interested : Option ℕ) (generation : ℕ) :
    CommitRec op ρ ε :=
  match exec operations with
  | .error e => createCommit ctxId commitId operations [] (some e) user interested 0
  | .ok results =>
    createCommit ctxId commitId operations results none user interested generation

/-- The `Timeout` error of the retry caps. -/
inductive TimeoutErr where
  | timeout
deriving DecidableEq, Repr

/-- `CommitContext.rerunCommit(commit)`: refuse with `Timeout` when the
generation exceeds 5; otherwise delete the old commit record from the
`commits` collection and replay the same operation list in a fresh
commit context (`freshCtx`), recording the result under a fresh commit id
with the generation counter incremented by one. -/
def rerunCommit (exec : List op → Except ε (List ρ)) (freshCtx freshCommit : ℕ)
    (db : List (CommitRec op ρ ε)) (c : CommitRec op ρ ε) :
    Except TimeoutErr (List (CommitRec op ρ ε) × CommitRec op ρ ε) :=
  if c.generation > 5 then
    .error .timeout
  else
    .ok (db.filter (fun r => r.id ≠ c.id),
      runCommitRecord exec freshCtx freshCommit c.user c.operations c.interested
        (c.generation + 1))

/-- Outcome of one `CommitContext.commit(commit)` attempt as observed by
the `processCommits` loop. -/
inductive AttemptOutcome where
  | success
  | conflict
  | locked
  | failure
deriving DecidableEq, Repr

/-- The loop state of `processCommits`: the current commit being
processed (`none` once the queue drained), the remaining unhandled queue,
the `commits` collection, the `lockedCommits` counters, the replay index
and the `successful` accumulator passed to `notifyChanges`. -/
structure PCState (op ρ ε : Type) where
  cur : Option (CommitRec op ρ ε)
  queue : List (CommitRec op ρ ε)
  db : List (CommitRec op ρ ε)
  cnt : ℕ → ℕ
  rr : ℕ
  successful : List (CommitRec op ρ ε)

/-- Result of one iteration of the `while commit:` loop of
`processCommits`: continue with a new state, exit the loop normally
(queue drained or `break` on `handlers_running`), or raise `Timeout`. -/
inductive PCStep (op ρ ε : Type) where
  | next (s : PCState op ρ ε)
  | finished (s : PCState op ρ ε)
  | timeout


/-- One iteration of the `processCommits` work loop.  `attempt` is the
outcome of `self.commit(commit)` on a record, `exec` the operation
executor used by replays, `fresh n` the (context id, commit id) pair of
the `n`-th replay, and `handlersRunning` the `commit.handlers_running`
probe.  On success or failure the loop proceeds to the next queued commit
(a failed record is saved with `state = failed`); on `ToisLocked` the
commit is un-handled and retried at most 3 times before `Timeout`; on
`CommitConflict` the commit is replayed via `rerunCommit` and processing
continues with the replayed record (`continue`).  (The `handled_by`
bookkeeping writes of `unhandle`/`unhandle_handled` are not tracked.) -/
def processCommitsStep (attempt : CommitRec op ρ ε → AttemptOutcome)
    (exec : List op → Except ε (List ρ)) (fresh : ℕ → ℕ × ℕ)
    (handlersRunning : CommitRec op ρ ε → Bool) (s : PCState op ρ ε) :
    PCStep op ρ ε :=
  match s.cur with
  | none => .finished s
  | some c =>
    match attempt c with
    | .success =>
      .next { s with cur := s.queue.head?, queue := s.queue.tail,
                     successful := s.successful ++ [c] }
    | .failure =>
      let failed := { c with state := CommitState.failed }
      .next { s with cur := s.queue.head?, queue := s.queue.tail,
                     db := s.db.map (fun r => if r.id = c.id then failed else r) }
    | .locked =>
      let n := s.cnt c.id + 1
      if n > 3 then
        .timeout
      else if handlersRunning c then
        .finished { s with cnt := fun i => if i = c.id then n else s.cnt i }
      else
        .next { s with cur := s.queue.head?, queue := s.queue.tail,
                       cnt := fun i => if i = c.id then n else s.cnt i }
    | .conflict =>
      match rerunCommit exec (fresh s.rr).1 (fresh s.rr).2 s.db c with
      | .error _ => .timeout
      | .ok (db', c') =>
        .next { s with cur := some c', db := db', rr := s.rr + 1 }

/-! ## Glob compilation (`pytransact/queryops.py`, `makeRe`) -/

/-- The characters Python 3's `re.escape` prefixes with a backslash. -/
def reSpecialChars : List Char :=
  ['(', ')', '[', ']', '\x7b', '\x7d', '?', '*', '+', '-', '|', '^', '$',
   '\\', '.', '&', '~', '#', ' ', '\t', '\n', '\r', '\x0b', '\x0c']

/-- `re.escape(p)`. -/
def reEscape (p : List Char) : List Char :=
  p.flatMap (fun c => if c ∈ reSpecialChars then ['\\', c] else [c])

/-- `replaceAsterisk.sub(r'\1.*', p)` for
`replaceAsterisk = re.compile(r'(^|[^\\])\\\*+')`: left-to-right,
non-overlapping replacement of a backslash followed by a run of
asterisks, preceded by the string start or a non-backslash character
(kept via the group reference).  The `true` mode consumes the tail of an
asterisk run whose head was just replaced (scanning resumes after the
whole match). -/
def subAstM : Bool → List Char → List Char
  | true, '*' :: rest => subAstM true rest
  | _, [] => []
  | _, '\\' :: rest => '\\' :: subAstM false rest
  | _, c :: '\\' :: '*' :: r2 => c :: '.' :: '*' :: subAstM true r2
  | _, c :: rest => c :: subAstM false rest

/-- `replaceAsterisk.sub(r'\1.*', p)` including the string-start
alternative of the group. -/
def subAst (l : List Char) : List Char :=
  match l with
  | '\\' :: '*' :: r => '.' :: '*' :: subAstM true r
  | _ => subAstM false l

/-- `replaceQuestionmark.sub(r'\1.', p)` for
`replaceQuestionmark = re.compile(r'(^|[^\\])\\\?')` (scanning part). -/
def subQmM : List Char → List Char
  | [] => []
  | '\\' :: rest => '\\' :: subQmM rest
  | c :: '\\' :: '?' :: r2 => c :: '.' :: subQmM r2
  | c :: rest => c :: subQmM rest

/-- `replaceQuestionmark.sub(r'\1.', p)` including the string-start
alternative of the group. -/
def subQm (l : List Char) : List Char :=
  match l with
  | '\\' :: '?' :: r => '.' :: subQmM r
  | _ => subQmM l

/-- `replaceBackslash.sub(r'\1', p)` for
`replaceBackslash = re.compile(r'\\\\(..?)')`: two literal backslashes
followed by one or (greedily) two characters, replaced by the captured
characters.  `.` does not match a newline, so a newline cannot be
captured. -/
def subBs : List Char → List Char
  | '\\' :: '\\' :: c1 :: rest =>
    if c1 = '\n' then
      -- `.` cannot match the newline, and no later match can start on the
      -- two backslashes or the newline: emit them and continue after
      '\\' :: '\\' :: c1 :: subBs rest
    else
      match rest with
      | [] => [c1]
      | c2 :: r2 =>
        -- the group takes `c2` as well unless it is a newline; a newline
        -- is never part of any match, so it passes through either way
        c1 :: c2 :: subBs r2
  | [] => []
  | c :: rest => c :: subBs rest

/-- `queryops.makeRe(p)`: escape the glob pattern, drop a trailing
escaped `*` (otherwise append `$`), drop a leading escaped `*` (otherwise
prepend `^`), then rewrite escaped asterisks to `.*`, escaped question
marks to `.` and doubled backslashes to their captured characters.
Returns the source string of the compiled regular expression. -/
def makeRe (p : List Char) : List Char :=
  let e := reEscape p
  let e :=
    if e.length ≥ 2 ∧ e.drop (e.length - 2) = ['\\', '*'] then
      e.take (e.length - 2)
    else e ++ ['$']
  let e := if e.take 2 = ['\\', '*'] then e.drop 2 else '^' :: e
  subBs (subQm (subAst e))

/-! ### A matcher for the regular-expression fragment `makeRe` emits

`makeRe`'s output is used through `compiled.search(string)`; the emitted
fragment consists of an optional leading `^` anchor, a trailing `$`
anchor, escaped literals, `.` and `.*`.  The matcher below interprets
exactly that fragment (`none` on anything else), following Python
semantics: `.` matches any character except a newline, `search` looks
for a match anywhere unless anchored. -/

/-- One atom of the emitted regex fragment. -/
inductive RAtom where
  | lit (c : Char)
  | dot
  | star
deriving DecidableEq, Repr

/-- Parse the body of an emitted regex (after the optional leading `^`):
`\c` is a literal, `.*` any (newline-free) substring, `.` any
non-newline character, a final bare `$` the end anchor; bare regex
metacharacters elsewhere are rejected. -/
def parseBody : List Char → Option (List RAtom × Bool)
  | [] => some ([], false)
  | ['$'] => some ([], true)
  | '\\' :: c :: rest => (parseBody rest).map (fun p => (.lit c :: p.1, p.2))
  | ['\\'] => none
  | '.' :: '*' :: rest => (parseBody rest).map (fun p => (.star :: p.1, p.2))
  | '.' :: rest => (parseBody rest).map (fun p => (.dot :: p.1, p.2))
  | c :: rest =>
    if c ∈ ['^', '$', '*', '?', '+', '(', ')', '[', ']', '|'] then none
    else (parseBody rest).map (fun p => (.lit c :: p.1, p.2))

/-- Parse a full emitted regex into (start-anchored, atoms, end-anchored). -/
def parseRe (r : List Char) : Option (Bool × List RAtom × Bool) :=
  match r with
  | '^' :: rest => (parseBody rest).map (fun p => (true, p.1, p.2))
  | _ => (parseBody r).map (fun p => (false, p.1, p.2))

/-- The suffixes of `s` obtained by dropping a newline-free prefix —
the candidate continuation points of a `.*`. -/
def nlTails : List Char → List (List Char)
  | [] => [[]]
  | x :: t => (x :: t) :: (if x = '\n' then [] else nlTails t)

/-- Match a list of atoms against `s` starting at its head; when `exact`
is set the atoms must consume all of `s` (an `$` anchor).  A `.*` may
swallow any newline-free prefix (Python's `.` does not match `\n`). -/
def atomsMatch (exact : Bool) : List RAtom → List Char → Bool
  | [], s => !exact || s.isEmpty
  | .lit c :: as, s =>
    match s with
    | x :: t => x = c && atomsMatch exact as t
    | [] => false
  | .dot :: as, s =>
    match s with
    | x :: t => x ≠ '\n' && atomsMatch exact as t
    | [] => false
  | .star :: as, s => (nlTails s).any (atomsMatch exact as)

/-- `compiled.search(s)` for a parsed regex: an unanchored pattern may
start at any position of `s`. -/
def reSearch (r : List Char) (s : List Char) : Bool :=
  match parseRe r with
  | none => false
  | some (anchS, atoms, anchE) =>
    if anchS then atomsMatch anchE atoms s
    else (s.tails.map (atomsMatch anchE atoms)).any id

/-- `makeRe(p).search(s)` on strings. -/
def globSearch (p s : String) : Bool :=
  reSearch (makeRe p.data) s.data

/-! ## Query translation (`pytransact/query.py`, `Query.mongo`, and the
operators' `mongo()` methods in `pytransact/queryops.py`) -/

/-- A mongo (BSON-ish) value as produced by the predicate translation.
Python tuples (the `'.'` marker of map operators) are represented as
`mlist`, compiled regexes as `mregex` carrying their source, and opaque
object ids as `moid`. -/
inductive MVal where
  | mnull
  | mbool (b : Bool)
  | mint (n : ℤ)
  | mstr (s : String)
  | moid (n : ℕ)
  | mregex (r : List Char)
  | mlist (l : List MVal)
  | mdoc (d : List (String × MVal))

/-- Python dict lookup on an insertion-ordered association list
(keys are unique by construction). -/
def dget : List (String × MVal) → String → Option MVal
  | [], _ => none
  | p :: rest, k => if p.1 = k then some p.2 else dget rest k

/-- `k in d`. -/
def dhas (d : List (String × MVal)) (k : String) : Bool :=
  (dget d k).isSome

/-- Python dict assignment `d[k] = v`: replaces in place, else appends. -/
def dset : List (String × MVal) → String → MVal → List (String × MVal)
  | [], k, v => [(k, v)]
  | p :: rest, k, v => if p.1 = k then (k, v) :: rest else p :: dset rest k v

/-- Python `del d[k]`. -/
def ddel : List (String × MVal) → String → List (String × MVal)
  | [], _ => []
  | p :: rest, k => if p.1 = k then rest else p :: ddel rest k

/-- Python `d.update(e)`. -/
def dupdate (d e : List (String × MVal)) : List (String × MVal) :=
  e.foldl (fun acc p => dset acc p.1 p.2) d

/-- The query operators of `queryops.py` that the translation model
covers, carrying the arguments their constructors store. -/
inductive QOp where
  | opEmpty
  | opNotEmpty
  | opIn (vals : List MVal)
  | opNotIn (vals : List MVal)
  | opNoneOf (vals : List MVal)
  | opGreater (v : MVal)
  | opLess (v : MVal)
  | opLike (pat : String)
  | opHasKey (k : String)
  | opLacksKey (k : String)
  | opFulltext (terms : List String)

/-- `op.mongo()` for each modelled operator, following the corresponding
method bodies (`Empty.mongo` returns `{'$empty': True}` and so on). -/
def QOp.mongo : QOp → MVal
  | .opEmpty => .mdoc [("$empty", .mbool true)]
  | .opNotEmpty => .mdoc [("$exists", .mbool true), ("$ne", .mlist [])]
  | .opIn vals => .mdoc [("$in", .mlist vals)]
  | .opNotIn vals => .mdoc [("$nin", .mlist vals)]
  | .opNoneOf vals => .mdoc [("$nor", .mlist vals)]
  | .opGreater v => .mdoc [("$gt", v)]
  | .opLess v => .mdoc [("$lt", v)]
  | .opLike pat => .mdoc [("$regex", .mregex (makeRe pat.data))]
  | .opHasKey k => .mdoc [(".", .mlist [.mstr k, .mdoc [("$exists", .mbool true)]])]
  | .opLacksKey k => .mdoc [(".", .mlist [.mstr k, .mdoc [("$exists", .mbool false)]])]
  | .opFulltext terms => .mdoc [("$fulltext", .mlist (terms.map MVal.mstr))]

/-- The condition key of a query: the special string `'id'`, a plain
(non-toi-reference) attribute or a toi-reference attribute.  `coerce` is
the attribute kind's `coerceValue`, used by `tryCoerceValue` (`none`
means the coercion raised and the value is kept unchanged). -/
inductive QAttr where
  | idKey
  | plain (name : String) (coerce : MVal → Option MVal)
  | toiref (name : String)

/-- `tryCoerceValue(attr, val)`: coercion failure keeps the value. -/
def tryCoerceValue (coerce : MVal → Option MVal) (v : MVal) : MVal :=
  match coerce v with
  | some v' => v'
  | none => v

/-- `Query._valueops`. -/
def isValueOp (k : String) : Bool :=
  k = "$gt" ∨ k = "$lt" ∨ k = "$gte" ∨ k = "$lte" ∨ k = "$all" ∨ k = "$ne" ∨
    k = "$in" ∨ k = "$nin" ∨ k = "$nor"

/-- `fixSpecial(attrName, mop)` from `Query.mongo`: expand the `'.'`
marker of map operators into a dotted attribute path, translate `$empty`
into `{'$in': [None, [], {}]}` (stripping a `.id` suffix from the path),
and reformat `$nor` into the top-level shape mongodb expects. -/
def fixSpecial (attrName : String) (mop : MVal) : String × MVal :=
  match mop with
  | .mdoc d =>
    let (attrName, d) :=
      match dget d "." with
      | some (.mlist [.mstr key, .mdoc inner]) => (attrName ++ "." ++ key, inner)
      | _ => (attrName, d)
    let (attrName, d) :=
      if dhas d "$empty" then
        let d := ddel d "$empty"
        let attrName :=
          if ".id".data.isSuffixOf attrName.data then
            ⟨attrName.data.take (attrName.data.length - 3)⟩
          else attrName
        (attrName, dset d "$in" (.mlist [.mnull, .mlist [], .mdoc []]))
      else (attrName, d)
    if dhas d "$nor" then
      match dget d "$nor" with
      | some (.mlist exprs) =>
        let norop := ddel d "$nor"
        ("$nor", .mlist (exprs.map (fun e => .mdoc (dset norop attrName e))))
      | _ => (attrName, .mdoc d)
    else (attrName, .mdoc d)
  | _ => (attrName, mop)

/-- The value-coercion pass of `_filter_mop` over an operator document:
every value under a `_valueops` key is run through `tryCoerceValue`
(element-wise for lists, skipping strings).  `Now()` resolution and
`$elemMatch` recursion concern operators outside this model. -/
def coerceMop (coerce : MVal → Option MVal) (mop : MVal) : MVal :=
  match mop with
  | .mdoc d =>
    .mdoc (d.map (fun p =>
      if isValueOp p.1 then
        match p.2 with
        | .mlist vs => (p.1, .mlist (vs.map (tryCoerceValue coerce)))
        | .mstr s => (p.1, tryCoerceValue coerce (.mstr s))
        | v => (p.1, tryCoerceValue coerce v)
      else p))
  | _ => mop

/-- `_filter_mop(attr, mop)`: the `id` key is rewritten to `_id` (or to
`_terms.data` for a `$fulltext` condition); toi-reference attributes
translate through the `.id` dotted path; plain attributes coerce their
comparison values and go through `fixSpecial`.  (Toi-reference condition
values are modelled as already-converted ids, matching the
`maybeObjectId` fallback that returns other values unchanged.) -/
def filterMop (attr : QAttr) (mop : MVal) : String × MVal :=
  match attr with
  | .idKey =>
    match mop with
    | .mnull => ("_id", .mnull)
    | .mdoc d =>
      if dhas d "$fulltext" then
        match dget d "$fulltext" with
        | some v => ("_terms.data", .mdoc (dset (ddel d "$fulltext") "$all" v))
        | none => ("_terms.data", .mdoc d)
      else fixSpecial "_id" (.mdoc d)
    | _ => fixSpecial "_id" mop
  | .toiref name => fixSpecial (name ++ ".id") mop
  | .plain name coerce => fixSpecial name (coerceMop coerce mop)

/-- One condition group: an ordered mapping from condition key to the
list of operators pushed for it. -/
abbrev CondGroup := List (QAttr × List QOp)

/-- A query: the full name of the queried class and its condition
groups (`Query` is a list of `ConditionGroup`s). -/
structure QueryM where
  tocName : String
  cgs : List CondGroup

/-- The inner loop of `Query.mongo` over one attribute's operator list:
a dict-valued translation merges into the group document under its
attribute name, a `$nor` extends the group's `$nor` list, and any other
translation is stored and `break`s the loop. -/
def groupFoldOps (attr : QAttr) : List QOp → List (String × MVal) →
    List (String × MVal)
  | [], cg => cg
  | op :: rest, cg =>
    let (attrName, mop) := filterMop attr op.mongo
    match mop with
    | .mdoc d =>
      let merged :=
        match dget cg attrName with
        | some (.mdoc old) => dset cg attrName (.mdoc (dupdate old d))
        | some _ => cg  -- setdefault on a non-dict value: unreachable shape
        | none => dset cg attrName (.mdoc d)
      groupFoldOps attr rest merged
    | .mlist exprs =>
      if attrName = "$nor" then
        let merged :=
          match dget cg "$nor" with
          | some (.mlist old) => dset cg "$nor" (.mlist (old ++ exprs))
          | some _ => cg
          | none => dset cg "$nor" (.mlist exprs)
        groupFoldOps attr rest merged
      else dset cg attrName (.mlist exprs)  -- then break
    | other => dset cg attrName other  -- then break

/-- Translate one condition group into its mongo document. -/
def translateGroup (cg : CondGroup) : List (String × MVal) :=
  cg.foldl (fun acc p => groupFoldOps p.1 p.2 acc) []

/-- `Query.mongo()`: start from the ancestor filter
`{'_bases': {'$in': [tocName]}}` (omitted for the root class `TO`),
translate every condition group, and combine — two or more groups become
a top-level `$or` disjunction, a single group is merged into the
top-level document. -/
def queryMongo (q : QueryM) : List (String × MVal) :=
  let mongo : List (String × MVal) :=
    if q.tocName ≠ "TO" then
      [("_bases", .mdoc [("$in", .mlist [.mstr q.tocName])])]
    else []
  let cglist := q.cgs.map translateGroup
  if cglist.length > 1 then
    dset mongo "$or" (.mlist (cglist.map MVal.mdoc))
  else
    match cglist with
    | [cg] => dupdate mongo cg
    | _ => mongo

/-! ## Sequence diff (`pytransact/diff.py` on top of `difflib.SequenceMatcher`)

`diff_opcodes(old, new)` calls `difflib.SequenceMatcher(None, old,
new).get_opcodes()`; the matcher is embedded below from the CPython
implementation, specialised to `isjunk=None` (so the junk set is empty
and the junk-extension loops of `find_longest_match` never fire) but
keeping the `autojunk` purge of popular elements. -/

section Difflib

variable {α : Type} [DecidableEq α]

/-- `b2j` before junk handling: the ascending list of positions of `x`
in `b` (the dict built by `__chain_b`'s enumerate loop). -/
def b2jAll (b : List α) (x : α) : List ℕ :=
  (List.range b.length).filter (fun j => b[j]? = some x)

/-- The `autojunk` purge: when `len(b) >= 200`, elements occurring more
than `len(b) // 100 + 1` times are dropped from `b2j`. -/
def isPopular (b : List α) (x : α) : Bool :=
  b.length ≥ 200 ∧ (b2jAll b x).length > b.length / 100 + 1

/-- `self.b2j` as used by `find_longest_match` (junk set empty since
`isjunk` is `None`). -/
def b2j (b : List α) (x : α) : List ℕ :=
  if isPopular b x then [] else b2jAll b x

/-- The inner loop of `find_longest_match` over `b2j.get(a[i], [])`:
maintain `newj2len` and the current best `(besti, bestj, bestsize)`.
`j2len (j-1) + 1` is the matched-suffix length; for `j = 0` Python reads
`j2len[-1]`, which is absent, so the length is 1. -/
def flmInner (j2len : ℕ → ℕ) (i blo bhi : ℕ) :
    List ℕ → (ℕ → ℕ) → ℕ × ℕ × ℕ → (ℕ → ℕ) × (ℕ × ℕ × ℕ)
  | [], newj2len, best => (newj2len, best)
  | j :: js, newj2len, best =>
    if j < blo then flmInner j2len i blo bhi js newj2len best
    else if j ≥ bhi then (newj2len, best)
    else
      let k := (if j = 0 then 0 else j2len (j - 1)) + 1
      let newj2len' := fun x => if x = j then k else newj2len x
      -- Python's `i-k+1` / `j-k+1`, with `k ≤ i+1` and `k ≤ j+1`
      let best' := if k > best.2.2 then (i + 1 - k, j + 1 - k, k) else best
      flmInner j2len i blo bhi js newj2len' best'

/-- The outer loop of `find_longest_match` over `i in range(alo, ahi)`. -/
def flmOuter (a b : List α) (blo bhi : ℕ) :
    List ℕ → (ℕ → ℕ) → ℕ × ℕ × ℕ → ℕ × ℕ × ℕ
  | [], _, best => best
  | i :: is', j2len, best =>
    let js := match a[i]? with
      | some x => b2j b x
      | none => []
    let p := flmInner j2len i blo bhi js (fun _ => 0) best
    flmOuter a b blo bhi is' p.1 p.2

/-- The first extension loop: extend the best block to the left while the
elements before it match (`isbjunk` is constantly false here).  The loop
decrements `besti`, so `besti` bounds its iteration count; the explicit
fuel argument makes the recursion structural. -/
def extendLeft (a b : List α) (alo blo : ℕ) :
    ℕ → ℕ × ℕ × ℕ → ℕ × ℕ × ℕ
  | 0, best => best
  | fuel + 1, (besti, bestj, size) =>
    if besti > alo ∧ bestj > blo ∧
        (a[besti - 1]?).isSome ∧ a[besti - 1]? = b[bestj - 1]? then
      extendLeft a b alo blo fuel (besti - 1, bestj - 1, size + 1)
    else (besti, bestj, size)

/-- The second extension loop: extend to the right while the elements
after the block match; `ahi` bounds the iteration count. -/
def extendRight (a b : List α) (ahi bhi : ℕ) :
    ℕ → ℕ × ℕ × ℕ → ℕ × ℕ × ℕ
  | 0, best => best
  | fuel + 1, (besti, bestj, size) =>
    if besti + size < ahi ∧ bestj + size < bhi ∧
        (a[besti + size]?).isSome ∧
        a[besti + size]? = b[bestj + size]? then
      extendRight a b ahi bhi fuel (besti, bestj, size + 1)
    else (besti, bestj, size)

/-- `find_longest_match(alo, ahi, blo, bhi)`: the `j2len` dynamic
programme followed by the two non-junk extension loops.  (The two
junk-extension loops are omitted: with `isjunk=None` the junk set is
empty and their conditions are never true.) -/
def find_longest_match (a b : List α) (alo ahi blo bhi : ℕ) : ℕ × ℕ × ℕ :=
  let best := flmOuter a b blo bhi (List.range' alo (ahi - alo)) (fun _ => 0)
    (alo, blo, 0)
  let best := extendLeft a b alo blo best.1 best
  extendRight a b ahi bhi ahi best

/-- The region recursion behind `get_matching_blocks`.  The CPython
version keeps a queue of regions, collects blocks in arbitrary order and
sorts them at the end; since all blocks of the left sub-region lie
strictly before the found block (in both coordinates) and those of the
right sub-region strictly after, the sorted result equals this direct
recursion.  The fuel argument bounds the recursion depth by the region
perimeter. -/
def matchingBlocksRec (a b : List α) :
    ℕ → ℕ → ℕ → ℕ → ℕ → List (ℕ × ℕ × ℕ)
  | 0, _, _, _, _ => []
  | fuel + 1, alo, ahi, blo, bhi =>
    let m := find_longest_match a b alo ahi blo bhi
    let i := m.1
    let j := m.2.1
    let k := m.2.2
    if k = 0 then []
    else
      (if alo < i ∧ blo < j then matchingBlocksRec a b fuel alo i blo j else [])
        ++ [(i, j, k)] ++
      (if i + k < ahi ∧ j + k < bhi then
        matchingBlocksRec a b fuel (i + k) ahi (j + k) bhi
      else [])

/-- The adjacent-block collapse at the end of `get_matching_blocks`:
`(i1,j1,k1)` absorbs an immediately adjacent `(i1+k1, j1+k1, k2)`. -/
def collapseBlocks : ℕ × ℕ × ℕ → List (ℕ × ℕ × ℕ) → List (ℕ × ℕ × ℕ)
  | (i1, j1, k1), [] => if k1 ≠ 0 then [(i1, j1, k1)] else []
  | (i1, j1, k1), (i2, j2, k2) :: rest =>
    if i1 + k1 = i2 ∧ j1 + k1 = j2 then collapseBlocks (i1, j1, k1 + k2) rest
    else
      (if k1 ≠ 0 then [(i1, j1, k1)] else []) ++ collapseBlocks (i2, j2, k2) rest

/-- `get_matching_blocks()`: recurse over the whole index rectangle,
collapse adjacent blocks, and append the `(la, lb, 0)` sentinel. -/
def get_matching_blocks (a b : List α) : List (ℕ × ℕ × ℕ) :=
  let la := a.length
  let lb := b.length
  collapseBlocks (0, 0, 0)
    (matchingBlocksRec a b (la + lb + 1) 0 la 0 lb) ++ [(la, lb, 0)]

/-- The opcode tags of `get_opcodes` (the Python strings `'replace'`,
`'delete'`, `'insert'`, `'equal'`). -/
inductive Tag where
  | replace
  | delete
  | insert
  | equal
deriving DecidableEq, Repr

/-- An opcode `(tag, i1, i2, j1, j2)`. -/
structure Opcode where
  tag : Tag
  a1 : ℕ
  a2 : ℕ
  b1 : ℕ
  b2 : ℕ
deriving DecidableEq, Repr

/-- The loop body of `get_opcodes`: walk the matching blocks with the
cursor `(i, j)`, emitting a gap opcode (replace / delete / insert) for
`a[i:ai] vs b[j:bj]` and an `equal` opcode for each non-sentinel block. -/
def opcodesFromBlocks : ℕ → ℕ → List (ℕ × ℕ × ℕ) → List Opcode
  | _, _, [] => []
  | i, j, (ai, bj, size) :: rest =>
    let gap : List Opcode :=
      if i < ai ∧ j < bj then [⟨.replace, i, ai, j, bj⟩]
      else if i < ai then [⟨.delete, i, ai, j, bj⟩]
      else if j < bj then [⟨.insert, i, ai, j, bj⟩]
      else []
    let eq : List Opcode :=
      if size ≠ 0 then [⟨.equal, ai, ai + size, bj, bj + size⟩] else []
    gap ++ eq ++ opcodesFromBlocks (ai + size) (bj + size) rest

/-- `SequenceMatcher(None, a, b).get_opcodes()`. -/
def get_opcodes (a b : List α) : List Opcode :=
  opcodesFromBlocks 0 0 (get_matching_blocks a b)

/-- `diff.diff_opcodes(old, new)`: keep the non-equal opcodes as
`(i1, i2, new[j1:j2])` triples. -/
def diff_opcodes (old new : List α) : List (ℕ × ℕ × List α) :=
  (get_opcodes old new).filterMap (fun op =>
    if op.tag = Tag.equal then none
    else some (op.a1, op.a2, (new.drop op.b1).take (op.b2 - op.b1)))

/-- One step of `diff.apply_opcodes`: the slice assignment
`result[idx1+offset : idx2+offset] = data` followed by the offset
update.  The offset is an integer (it goes negative when deletions
outweigh insertions); the slice bounds are non-negative whenever the
opcodes come from `diff_opcodes`. -/
def applyStep (p : List α × ℤ) (op : ℕ × ℕ × List α) : List α × ℤ :=
  let idx1 := op.1
  let idx2 := op.2.1
  let data := op.2.2
  let l := ((idx1 : ℤ) + p.2).toNat
  let r := ((idx2 : ℤ) + p.2).toNat
  (p.1.take l ++ data ++ p.1.drop r,
    p.2 + data.length - ((idx2 : ℤ) - (idx1 : ℤ)))

/-- `diff.apply_opcodes(old, opcodes)`. -/
def apply_opcodes (old : List α) (opcodes : List (ℕ × ℕ × List α)) : List α :=
  (opcodes.foldl applyStep (old, 0)).1

/-- `a[i:i+k] == b[j:j+k]` with both ranges in bounds. -/
def MatchAt (a b : List α) (i j k : ℕ) : Prop :=
  i + k ≤ a.length ∧ j + k ≤ b.length ∧
    ∀ t, t < k → a[i + t]? = b[j + t]?

/-- The blocks form a staircase starting at `(i0, j0)` and bounded by
`(hiA, hiB)`: coordinates never decrease, every block is a real match,
and consecutive blocks do not overlap. -/
def Staircase (a b : List α) (hiA hiB : ℕ) : ℕ → ℕ → List (ℕ × ℕ × ℕ) → Prop
  | i0, j0, [] => i0 ≤ hiA ∧ j0 ≤ hiB
  | i0, j0, (i, j, k) :: rest =>
    i0 ≤ i ∧ j0 ≤ j ∧ MatchAt a b i j k ∧ Staircase a b hiA hiB (i + k) (j + k) rest

/-- The final `a`-cursor after walking the blocks. -/
def endA : ℕ → List (ℕ × ℕ × ℕ) → ℕ
  | i0, [] => i0
  | _, (i, _, k) :: rest => endA (i + k) rest

/-- The final `b`-cursor after walking the blocks. -/
def endB : ℕ → List (ℕ × ℕ × ℕ) → ℕ
  | j0, [] => j0
  | _, (_, j, k) :: rest => endB (j + k) rest

/-- Validity of a `find_longest_match` candidate for the region
`[alo, ahi) × [blo, bhi)`: in-region and a genuine match. -/
def ValidBest (a b : List α) (alo ahi blo bhi : ℕ) (best : ℕ × ℕ × ℕ) : Prop :=
  alo ≤ best.1 ∧ blo ≤ best.2.1 ∧ best.1 + best.2.2 ≤ ahi ∧
    best.2.1 + best.2.2 ≤ bhi ∧ MatchAt a b best.1 best.2.1 best.2.2

/-- Validity of the `j2len` row map arriving at row `i`: an entry
`j2len j = k ≥ 1` records a match of length `k` ending at `(i - 1, j)`
(expressed additively: starting at `(i - k, j + 1 - k)`). -/
def RowOk (a b : List α) (alo blo bhi i : ℕ) (m : ℕ → ℕ) : Prop :=
  ∀ j, 1 ≤ m j → ∃ i0 j0, i0 + m j = i ∧ j0 + m j = j + 1 ∧
    alo ≤ i0 ∧ blo ≤ j0 ∧ j < bhi ∧ MatchAt a b i0 j0 (m j)

end Difflib

/-! ## Relation fix-up (`commit.py`)

A model of the bidirectional-relation maintenance machinery: the
attribute descriptor's `__set__` (`object/attribute.py` 253-288, with
the implicit-rollback bookkeeping of `_orgAttrData`), `register`
(`commit.py` 379-400), `requestAttribute` (`commit.py` 504-523),
the relation-relevant core of `validateAttrValues` (`commit.py`
537-672: the unconditional weak-filtering of deleted referents at
lines 577-581, followed by the ToiRef referent checks at lines
650-672 — of which the `val._deleted` check at 658-662, raising
`cAttrValueError(ToiDeletedError)`, is live here, while the
`isinstance` check is vacuous for a single class and the post-only
phantom-existence check is vacuous in a closed world of existing
tois; the schema declares no restrictions and none of the computed /
read-only / unchangeable / reorder-only / unique properties, so those
guards are vacuous too), `updateRelations`
(`commit.py` 726-803, the `related is not None` branch),
`ChangeToi.operate` (`commit.py` 1414-1502, restricted to the steps
live for a relation attribute in such a schema: the reload/deleted
check, pre-validation, `setattr`, the post-validation `setattr`, and
the per-attribute `updateRelations` call at lines 1496-1497),
`DeleteToi.operate` (`commit.py` 1539-1600 with its
reference-still-held guard at lines 1565-1581), and the three
relation fix-up loops of `runCommit` (`commit.py` 848-865).

The world is a single class of tois with two mutual relation
attributes `r` and `s` (`related(r) = s` and `related(s) = r`), each
carrying the current value (`_attrData`) and the saved original value
(`_orgAttrData`, absent when the attribute is unmodified).  Toi
references compare and hash by id in the source (`to.py` 362-379), so
values are lists of ids; `diff.difference` goes through Python `set`
(`diff.py` 51-61), modelled by order-preserving deduplication (CPython
set iteration order is unspecified; the runs examined below have at
most one element in each diff, so the order never matters). -/

section Relations

/-- The two mutual relation attribute names. -/
inductive AName where
  | r
  | s
deriving DecidableEq, Repr

/-- The counterpart (`attr.related`) of each relation attribute. -/
def AName.co : AName → AName
  | .r => .s
  | .s => .r

/-- One relation attribute slot: `_attrData` current value and the
`_orgAttrData` entry (`none` when the attribute is unmodified). -/
structure RelAttr where
  cur : List ℕ
  org : Option (List ℕ)
deriving DecidableEq, Repr

/-- A toi: id, `_deleted` flag, and its two relation attributes. -/
structure Toi where
  id : ℕ
  deleted : Bool
  r : RelAttr
  s : RelAttr
deriving DecidableEq, Repr

def Toi.attr (t : Toi) : AName → RelAttr
  | .r => t.r
  | .s => t.s

def Toi.setAttrData (t : Toi) : AName → RelAttr → Toi
  | .r, v => { t with r := v }
  | .s, v => { t with s := v }

/-- The commit context: the identity-mapped world plus the
`newTois` / `changedTois` / `deletedTois` registries and the
`Weak` property of each relation attribute. -/
structure Ctx where
  world : List Toi
  newTois : List ℕ
  changedTois : List ℕ
  deletedTois : List ℕ
  weakR : Bool
  weakS : Bool
deriving DecidableEq, Repr

/-- Errors surfaced by the modelled fragment.  `attrValueError` is the
`cAttrValueError(... ToiDeletedError ...)` of the ToiRef referent
check (`commit.py` 658-662). -/
inductive RelErr where
  | toiDeleted
  | runtimeError
  | missingToi
  | attrValueError
deriving DecidableEq, Repr

def Ctx.weak (c : Ctx) : AName → Bool
  | .r => c.weakR
  | .s => c.weakS

def Ctx.lookup (c : Ctx) (i : ℕ) : Option Toi :=
  c.world.find? (fun t => t.id == i)

def Ctx.updateToi (c : Ctx) (i : ℕ) (f : Toi → Toi) : Ctx :=
  { c with world := c.world.map (fun t => if t.id = i then f t else t) }

/-- Whether the toi with id `i` is marked deleted. -/
def Ctx.deletedIn (c : Ctx) (i : ℕ) : Bool :=
  ((c.lookup i).map Toi.deleted).getD false

/-- `register` (`commit.py` 379-400): deleted tois leave `newTois` (and
are dropped) or move from `changedTois` to `deletedTois`; live tois
enter `changedTois` unless already registered. -/
def register (c : Ctx) (i : ℕ) : Ctx :=
  match c.lookup i with
  | none => c
  | some toi =>
    if toi.deleted then
      if i ∈ c.deletedTois then c
      else if i ∈ c.newTois then { c with newTois := c.newTois.erase i }
      else { c with changedTois := c.changedTois.erase i,
                    deletedTois := c.deletedTois ++ [i] }
    else if i ∉ c.newTois ∧ i ∉ c.changedTois then
      { c with changedTois := c.changedTois ++ [i] }
    else c

/-- `Attribute.value` (`attribute.py` 295-329): raises `ToiDeletedError`
on a deleted toi, otherwise the `_attrData` entry (always populated
here). -/
def value (c : Ctx) (i : ℕ) (a : AName) : Except RelErr (List ℕ) :=
  match c.lookup i with
  | none => .error .missingToi
  | some toi =>
    if toi.deleted then .error .toiDeleted else .ok (toi.attr a).cur

/-- `Attribute.oldvalue` (`attribute.py` 331-349): the `_orgAttrData`
entry when present, else (via the temporarily-undeleted `self.value`
path) the current value. -/
def oldvalue (toi : Toi) (a : AName) : List ℕ :=
  (toi.attr a).org.getD (toi.attr a).cur

/-- `validateAttrValues` (`commit.py` 537-672) for a relation attribute
in a schema with no restrictions and no extra properties: the `Weak`
filter at lines 577-581 drops deleted referents, then the ToiRef
referent check at lines 650-662 (which runs for both `pre` and `post`
validation) raises `cAttrValueError(ToiDeletedError)` if any remaining
referent is deleted.  The `isinstance` check (652-656) and the
post-only phantom-existence check (664-672) are vacuous here: one
class, and every referenced id exists. -/
def validateAttrValues (c : Ctx) (a : AName) (v : List ℕ) :
    Except RelErr (List ℕ) :=
  let v := if c.weak a then v.filter (fun x => ¬ c.deletedIn x) else v
  if v.any (fun x => c.deletedIn x) then .error .attrValueError else .ok v

/-- Python `set`-based deduplication (order-preserving model). -/
def pyset (l : List ℕ) : List ℕ :=
  l.foldl (fun acc x => if x ∈ acc then acc else acc ++ [x]) []

/-- `Attribute.__set__` (`attribute.py` 253-288): refuse a deleted
target, no-op when the value is unchanged, maintain `_orgAttrData`
(storing the original on first modification, deleting the entry on an
implicit rollback), store the value and `register` the toi. -/
def setattr (c : Ctx) (i : ℕ) (a : AName) (val : List ℕ) :
    Except RelErr Ctx :=
  match c.lookup i with
  | none => .error .missingToi
  | some toi =>
    if toi.deleted then .error .toiDeleted
    else
      let myval := (toi.attr a).cur
      if myval = val then .ok c
      else
        let org' : Option (List ℕ) :=
          match (toi.attr a).org with
          | some o => if o = val then none else some o
          | none => some myval
        .ok (register
          (c.updateToi i (fun t => t.setAttrData a ⟨val, org'⟩)) i)

/-- `CommitContext.requestAttribute` (`commit.py` 504-523): new tois
answer from the attribute value, deleted tois raise, otherwise the
(cached, hence current) value, weak-filtered unless `filter=False`. -/
def requestAttribute (c : Ctx) (i : ℕ) (a : AName) (filter : Bool) :
    Except RelErr (List ℕ) :=
  match c.lookup i with
  | none => .error .missingToi
  | some toi =>
    if i ∈ c.newTois then value c i a
    else if toi.deleted then .error .runtimeError
    else
      let rval := (toi.attr a).cur
      .ok (if filter && c.weak a
        then rval.filter (fun x => ¬ c.deletedIn x) else rval)

/-- `CommitContext.updateRelations` (`commit.py` 726-803, the
`related is not None` branch): diff old against new (whole value for a
new toi), then add the back-link on each added peer (reading the
peer's counterpart value raises `ToiDeletedError` on a deleted peer)
and remove it from each removed peer that is not itself deleted. -/
def updateRelations (c : Ctx) (i : ℕ) (a : AName) : Except RelErr Ctx :=
  match c.lookup i with
  | none => .error .missingToi
  | some toi =>
    let v := if toi.deleted then [] else (toi.attr a).cur
    let ar : List ℕ × List ℕ :=
      if i ∈ c.newTois then (v, [])
      else
        let old := oldvalue toi a
        (pyset (v.filter (fun x => x ∉ old)),
         pyset (old.filter (fun x => x ∉ v)))
    do
      let c ← ar.1.foldlM (fun c val =>
        match c.lookup val with
        | none => .error RelErr.missingToi
        | some peer =>
          if peer.deleted then .error RelErr.toiDeleted
          else if i ∈ (peer.attr a.co).cur then .ok c
          else do
            let v ← validateAttrValues c a.co ((peer.attr a.co).cur ++ [i])
            setattr c val a.co v) c
      let c ← ar.2.foldlM (fun c val =>
        match c.lookup val with
        | none => .error RelErr.missingToi
        | some peer =>
          if peer.deleted then .ok c
          else do
            let rv ← requestAttribute c val a.co false
            if i ∈ rv then do
              let v ← validateAttrValues c a.co ((peer.attr a.co).cur.erase i)
              setattr c val a.co v
            else .ok c) c
      .ok c

/-- `ChangeToi.operate` (`commit.py` 1414-1502) for one relation
attribute in this schema: reload-and-check-deleted, pre-validate the
value, `setattr` it, post-validate (a `setattr` of the post-validated
current value, line 1492-1494), then `updateRelations` (line
1496-1497). -/
def changeToi (c : Ctx) (i : ℕ) (a : AName) (val : List ℕ) :
    Except RelErr Ctx :=
  match c.lookup i with
  | none => .error .toiDeleted
  | some toi =>
    if toi.deleted then .error .toiDeleted
    else do
      let v ← validateAttrValues c a val
      let c ← setattr c i a v
      let cur ← value c i a
      let v' ← validateAttrValues c a cur
      let c ← setattr c i a v'
      updateRelations c i a

/-- `DeleteToi.operate` (`commit.py` 1539-1600): no-op when the toi is
already gone; for every relation attribute whose counterpart is not
weak, fail if a live referenced peer still holds the back-link
(lines 1565-1581); then mark deleted and `register`. -/
def deleteToi (c : Ctx) (i : ℕ) : Except RelErr Ctx :=
  match c.lookup i with
  | none => .ok c
  | some toi =>
    if toi.deleted then .ok c
    else do
      let _ ← [AName.r, AName.s].foldlM (fun (_ : Unit) a =>
        if ¬ c.weak a.co then
          (toi.attr a).cur.foldlM (fun (_ : Unit) refid =>
            match c.lookup refid with
            | none => .error RelErr.missingToi
            | some ref =>
              if ¬ ref.deleted ∧ i ∈ (ref.attr a.co).cur then
                .error RelErr.runtimeError
              else .ok ()) ()
        else .ok ()) ()
      .ok (register (c.updateToi i (fun t => { t with deleted := true })) i)

/-- The three relation fix-up loops of `runCommit` (`commit.py`
848-865): the snapshot of `changedTois` (each toi's attribute list
re-read from `_orgAttrData` at its processing time), then `newTois`
(all populated attributes), then `deletedTois` (all attributes). -/
def runCommitFixup (c : Ctx) : Except RelErr Ctx := do
  let snapshot := c.changedTois
  let c ← snapshot.foldlM (fun c i =>
    match c.lookup i with
    | none => .error RelErr.missingToi
    | some toi =>
      ([AName.r, AName.s].filter (fun a => (toi.attr a).org.isSome)).foldlM
        (fun c a => updateRelations c i a) c) c
  let c ← c.newTois.foldlM (fun c i =>
    [AName.r, AName.s].foldlM (fun c a => updateRelations c i a) c) c
  let c ← c.deletedTois.foldlM (fun c i =>
    [AName.r, AName.s].foldlM (fun c a => updateRelations c i a) c) c
  .ok c

/-- The claimed post-commit invariant: for every non-deleted toi `t`
and every element `x` of a relation value of `t`, the peer holds the
back-link, or the peer is deleted and the counterpart attribute is
weak. -/
def RelInvariant (c : Ctx) : Prop :=
  ∀ t ∈ c.world, t.deleted = false →
    (∀ x ∈ t.r.cur, ∃ p ∈ c.world, p.id = x ∧
      (t.id ∈ p.s.cur ∨ (p.deleted = true ∧ c.weakS = true))) ∧
    (∀ x ∈ t.s.cur, ∃ p ∈ c.world, p.id = x ∧
      (t.id ∈ p.r.cur ∨ (p.deleted = true ∧ c.weakR = true)))

instance (c : Ctx) : Decidable (RelInvariant c) := by
  unfold RelInvariant
  infer_instance

/-- A symmetric, duplicate-free two-toi world: toi 1 with `r = [2]`,
toi 2 with `s = [1]`, both relation attributes non-weak. -/
def relWorld0 : Ctx :=
  { world := [⟨1, false, ⟨[2], none⟩, ⟨[], none⟩⟩,
              ⟨2, false, ⟨[], none⟩, ⟨[1], none⟩⟩],
    newTois := [], changedTois := [], deletedTois := [],
    weakR := false, weakS := false }

/-- A two-operation commit with no deletions: clear `toi1.r` (whose
inline fix-up removes the single occurrence of `1` from `toi2.s`),
then set `toi2.s` to `[1, 1]` — a duplicate reference whose diff
against the saved original `[1]` is empty under set semantics, so no
back-link is restored — and finally run the `runCommit` fix-up loops,
where re-processing toi 1 strips one occurrence of `1` from `toi2.s`
(an implicit rollback that erases `toi2.s`'s `_orgAttrData` entry),
leaving toi 2 unprocessed with `s = [1]` while `toi1.r = []`. -/
def relScenario : Except RelErr Ctx := do
  let c ← changeToi relWorld0 1 .r []
  let c ← changeToi c 2 .s [1, 1]
  runCommitFixup c

end Relations

/-! # Theorems -/

/-! ## Helper lemmas -/

theorem retryLoop_all_transient (attempts : Nat → CallOutcome α ε) :
    ∀ (ws : List ℚ) (n : Nat),
      (∀ k, n ≤ k → k < n + ws.length → attempts k = .autoReconnect) →
      retryLoop attempts n ws = (.unboundLocalError, ws) := by
  intro ws
  induction ws with
  | nil => intro n _; rfl
  | cons w rest ih =>
    intro n h
    have h0 : attempts n = .autoReconnect := h n le_rfl (by simp)
    have hrec := ih (n + 1) (fun k hk1 hk2 => h k (by omega) (by simp at *; omega))
    simp [retryLoop, h0, hrec]

theorem retryLoop_stops (attempts : Nat → CallOutcome α ε)
    (out : CallOutcome α ε) (res : RetryResult α ε)
    (hout : (∃ v, out = .ok v ∧ res = .ok v) ∨ (∃ e, out = .fatal e ∧ res = .fatal e)) :
    ∀ (j : ℕ) (ws : List ℚ) (n : Nat), j < ws.length →
      (∀ k, k < j → attempts (n + k) = .autoReconnect) →
      attempts (n + j) = out →
      retryLoop attempts n ws = (res, ws.take j) := by
  intro j
  induction j with
  | zero =>
    intro ws n hlen _ hj
    match ws, hlen with
    | w :: rest, _ =>
      rcases hout with ⟨v, rfl, rfl⟩ | ⟨e, rfl, rfl⟩ <;>
        simp only [retryLoop] <;> rw [show n + 0 = n from rfl] at hj <;>
        simp [hj, List.take]
  | succ j ih =>
    intro ws n hlen hbefore hj
    match ws, hlen with
    | w :: rest, hlen =>
      have h0 : attempts n = .autoReconnect := by
        have := hbefore 0 (Nat.succ_pos j)
        simpa using this
      have hrec := ih rest (n + 1) (by simpa using hlen)
        (fun k hk => by
          have := hbefore (k + 1) (by omega)
          rwa [show n + (k + 1) = n + 1 + k by omega] at this)
        (by rwa [show n + 1 + j = n + (j + 1) by omega])
      simp [retryLoop, h0, hrec, List.take]

/-- `d[k]` right after `d[k] = v`. -/
theorem dget_dset_self (d : List (String × MVal)) (k : String) (v : MVal) :
    dget (dset d k v) k = some v := by
  induction d with
  | nil => simp [dset, dget]
  | cons p rest ih =>
    by_cases hpk : p.1 = k
    · simp [dset, hpk, dget]
    · simp [dset, hpk, dget, ih]

/-- `d[k']` is untouched by `d[k] = v` for `k' ≠ k`. -/
theorem dget_dset_ne (d : List (String × MVal)) (k k' : String) (v : MVal)
    (hne : k' ≠ k) : dget (dset d k v) k' = dget d k' := by
  induction d with
  | nil => simp [dset, dget, Ne.symm hne]
  | cons p rest ih =>
    by_cases hpk : p.1 = k
    · simp [dset, hpk, dget, Ne.symm hne, hpk ▸ (Ne.symm hne)]
    · by_cases hpk' : p.1 = k'
      · simp [dset, hpk, dget, hpk', hne]
      · simp [dset, hpk, dget, hpk', ih]

/-- `d.update(e)` does not touch keys outside `e`. -/
theorem dget_dupdate_of_not_mem (d e : List (String × MVal)) (k : String)
    (h : dhas e k = false) : dget (dupdate d e) k = dget d k := by
  induction e generalizing d with
  | nil => rfl
  | cons p rest ih =>
    simp only [dhas, dget] at h
    by_cases hpk : p.1 = k
    · simp [hpk] at h
    · simp only [dupdate, List.foldl_cons]
      have hrest : dhas rest k = false := by
        simp only [dhas]
        simpa [hpk] using h
      have := ih (dset d p.1 p.2) hrest
      simp only [dupdate] at this
      rw [this, dget_dset_ne _ _ _ _ (fun hh => hpk hh.symm)]

/-- `retryLoop` can never surface the transient error itself: every
exit is a success, a fatal error, or — on exhaustion — the
`UnboundLocalError` from the unbound `exc`. -/
theorem retryLoop_never_autoReconnect (attempts : Nat → CallOutcome α ε) :
    ∀ (ws : List ℚ) (n : Nat),
      (retryLoop attempts n ws).1 ≠ .autoReconnect := by
  intro ws
  induction ws with
  | nil => intro n h; cases h
  | cons w rest ih =>
    intro n
    simp only [retryLoop]
    cases attempts n with
    | ok v => intro h; cases h
    | fatal e => intro h; cases h
    | autoReconnect =>
      have := ih (n + 1)
      cases hrec : retryLoop attempts (n + 1) rest with
      | mk res sleeps =>
        rw [hrec] at this
        simpa [hrec] using this

/-! ## C5 — storage adapter retry backoff -/

/-- **C5, code bug.**  Every `retry`-wrapped storage call makes at most
nine attempts, with the backoff schedule 0, 0.1, 0.5, 1, 2, 5, 5, 5, 5
seconds: a success at attempt `j` (0-based, after `j` transient
failures) returns its value having slept the first `j` scheduled waits,
and a non-transient failure at attempt `j` propagates immediately with
no further attempts or sleeps.  The claim's exhaustion conjunct is
false, however: after nine consecutive transient `AutoReconnect`
failures the `raise exc` at `mongo.py` line 47 finds `exc` unbound
(Python 3 deletes the `except ... as exc` binding at the end of the
except suite), so the caller gets `UnboundLocalError`, and no run of
the loop ever re-raises the transient error. -/
theorem retry_backoff_bug (attempts : Nat → CallOutcome α ε) :
    (∀ j v, j ≤ 8 → (∀ k, k < j → attempts k = .autoReconnect) →
      attempts j = .ok v →
      retryRun attempts = (.ok v, retryWaits.take j)) ∧
    ((∀ k, k ≤ 8 → attempts k = .autoReconnect) →
      retryRun attempts = (.unboundLocalError, retryWaits)) ∧
    (∀ j e, j ≤ 8 → (∀ k, k < j → attempts k = .autoReconnect) →
      attempts j = .fatal e →
      retryRun attempts = (.fatal e, retryWaits.take j)) ∧
    ((retryRun attempts).1 ≠ .autoReconnect) := by
  refine ⟨?_, ?_, ?_, ?_⟩
  · intro j v hj hbefore hok
    have := retryLoop_stops attempts (.ok v) (.ok v) (Or.inl ⟨v, rfl, rfl⟩)
      j retryWaits 0 (by simp [retryWaits]; omega)
      (fun k hk => by simpa using hbefore k hk) (by simpa using hok)
    exact this
  · intro h
    have := retryLoop_all_transient attempts retryWaits 0
      (fun k hk1 hk2 => h k (by simp [retryWaits] at hk2; omega))
    exact this
  · intro j e hj hbefore hfatal
    have := retryLoop_stops attempts (.fatal e) (.fatal e) (Or.inr ⟨e, rfl, rfl⟩)
      j retryWaits 0 (by simp [retryWaits]; omega)
      (fun k hk => by simpa using hbefore k hk) (by simpa using hfatal)
    exact this
  · exact retryLoop_never_autoReconnect attempts retryWaits 0

/-- Witness for C5: a call that fails transiently twice and then
succeeds returns after sleeping 0 and 0.1 seconds; a call that always
fails transiently ends in `UnboundLocalError` (not the transient
error) after the full schedule; a fatal error on the second attempt
propagates at once. -/
theorem retry_backoff_bug_witness :
    retryRun (fun k => if k < 2 then CallOutcome.autoReconnect
        else CallOutcome.ok (37 : ℕ) (ε := Unit)) =
      (.ok 37, [0, 1/10]) ∧
    retryRun (fun _ => CallOutcome.autoReconnect (α := ℕ) (ε := Unit)) =
      (.unboundLocalError, [0, 1/10, 1/2, 1, 2, 5, 5, 5, 5]) ∧
    retryRun (fun k => if k < 1 then CallOutcome.autoReconnect
        else CallOutcome.fatal (α := ℕ) ()) = (.fatal (), [0]) ∧
    (retryRun (fun _ => CallOutcome.autoReconnect (α := ℕ) (ε := Unit))).1 ≠
      .autoReconnect := by
  refine ⟨?_, ?_, ?_, ?_⟩
  · have := (retry_backoff_bug (fun k => if k < 2 then CallOutcome.autoReconnect
        else CallOutcome.ok (37 : ℕ) (ε := Unit))).1 2 37 (by omega)
      (fun k hk => by simp [hk]) (by simp)
    simpa [retryWaits] using this
  · have := (retry_backoff_bug
        (fun _ => CallOutcome.autoReconnect (α := ℕ) (ε := Unit))).2.1
      (fun k _ => rfl)
    simpa [retryWaits] using this
  · have := (retry_backoff_bug (fun k => if k < 1 then CallOutcome.autoReconnect
        else CallOutcome.fatal (α := ℕ) ())).2.2.1 1 () (by omega)
      (fun k hk => by simp [hk]) (by simp)
    simpa [retryWaits] using this
  · exact (retry_backoff_bug
        (fun _ => CallOutcome.autoReconnect (α := ℕ) (ε := Unit))).2.2.2

/-! ## C7 — `Int.coerceValue` on floats -/

/-- **C7, counterexample.**  The claim says coercion through the int
kind raises an int-value error on floats with a nonzero fractional part.
It does not: `Int.coerceValue(3.5)` is `int(3.5)` which truncates toward
zero, returning 3. -/
theorem int_coerce_float_truncates_counterexample :
    Int'.coerceValue (.vfloat (7 / 2)) = .ok (.vint 3) := by
  have h1 : ((7 : ℚ) / 2).num = 7 := by norm_num
  have h2 : ((7 : ℚ) / 2).den = 2 := by norm_num
  simp only [Int'.coerceValue, pyInt, h1, h2]
  rfl

/-- **C7, amended.**  `Int.coerceValue` accepts every float, truncating
toward zero (so floats with a nonzero fractional part are silently
truncated, not rejected); integers coerce to themselves; a non-numeric
string raises `IntValueError` carrying the offending value. -/
theorem int_coerce_spec :
    (∀ q : ℚ, Int'.coerceValue (.vfloat q) = .ok (.vint (Int.tdiv q.num q.den))) ∧
    (∀ n : ℤ, Int'.coerceValue (.vint n) = .ok (.vint n)) ∧
    Int'.coerceValue (.vstr "bad int") = .error (.intValueError (.vstr "bad int")) := by
  refine ⟨fun q => rfl, fun n => rfl, by rfl⟩

/-! ## C10 — disjointness of the `register` bookkeeping maps -/

/-- **C10.**  Starting from `_clear`, `register` keeps `newTois`,
`changedTois` and `deletedTois` pairwise disjoint: a deleted toi that is
still in `newTois` is dropped from it without entering `deletedTois`; a
deleted toi otherwise leaves `changedTois` and enters `deletedTois`; a
non-deleted toi joins `changedTois` only when in neither `newTois` nor
`changedTois`.  The hypothesis `deleted = false → toid ∉ deletedTois`
reflects that a toi's `_deleted` flag is never reset in the source
(`to.py` sets it only at creation), so an id already registered as
deleted is only ever re-registered as deleted. -/
theorem register_disjoint :
    RegState.clear.PairwiseDisjoint ∧
    ∀ (s : RegState) (toid : ℕ) (deleted : Bool),
      s.PairwiseDisjoint → (deleted = false → toid ∉ s.deletedTois) →
      ((s.register toid deleted).PairwiseDisjoint ∧
        (deleted = true → toid ∈ s.newTois →
          s.register toid deleted = { s with newTois := s.newTois.erase toid }) ∧
        (deleted = true → toid ∉ s.newTois → toid ∉ s.deletedTois →
          s.register toid deleted =
            { s with changedTois := s.changedTois.erase toid,
                     deletedTois := insert toid s.deletedTois }) ∧
        (deleted = false → toid ∉ s.newTois → toid ∉ s.changedTois →
          s.register toid deleted =
            { s with changedTois := insert toid s.changedTois })) := by
  constructor
  · refine ⟨?_, ?_, ?_⟩ <;> simp [RegState.clear]
  · intro s toid deleted hdisj hdel
    obtain ⟨h12, h13, h23⟩ := hdisj
    refine ⟨?_, ?_, ?_, ?_⟩
    · cases deleted with
      | true =>
        by_cases hd : toid ∈ s.deletedTois
        · simpa [RegState.register, hd] using ⟨h12, h13, h23⟩
        · by_cases hn : toid ∈ s.newTois
          · simp only [RegState.register, if_pos rfl, if_neg hd, if_pos hn]
            exact ⟨Finset.disjoint_left.mpr
                (fun a ha => Finset.disjoint_left.mp h12 (Finset.mem_of_mem_erase ha)),
              Finset.disjoint_left.mpr
                (fun a ha => Finset.disjoint_left.mp h13 (Finset.mem_of_mem_erase ha)),
              h23⟩
          · simp only [RegState.register, if_pos rfl, if_neg hd, if_neg hn]
            refine ⟨Finset.disjoint_left.mpr (fun a ha hb => ?_),
              Finset.disjoint_left.mpr (fun a ha hb => ?_),
              Finset.disjoint_left.mpr (fun a ha hb => ?_)⟩
            · exact Finset.disjoint_left.mp h12 ha (Finset.mem_of_mem_erase hb)
            · rcases Finset.mem_insert.mp hb with rfl | hb
              · exact hn ha
              · exact Finset.disjoint_left.mp h13 ha hb
            · rcases Finset.mem_insert.mp hb with rfl | hb
              · exact (Finset.not_mem_erase a s.changedTois) ha
              · exact Finset.disjoint_left.mp h23 (Finset.mem_of_mem_erase ha) hb
      | false =>
        have hd : toid ∉ s.deletedTois := hdel rfl
        by_cases hnc : toid ∉ s.newTois ∧ toid ∉ s.changedTois
        · simp only [RegState.register, Bool.false_eq_true, if_false, if_pos hnc]
          refine ⟨Finset.disjoint_left.mpr (fun a ha hb => ?_), h13,
            Finset.disjoint_left.mpr (fun a ha hb => ?_)⟩
          · rcases Finset.mem_insert.mp hb with rfl | hb
            · exact hnc.1 ha
            · exact Finset.disjoint_left.mp h12 ha hb
          · rcases Finset.mem_insert.mp ha with rfl | ha
            · exact hd hb
            · exact Finset.disjoint_left.mp h23 ha hb
        · simpa [RegState.register, hnc] using ⟨h12, h13, h23⟩
    · rintro rfl hn
      have hd : toid ∉ s.deletedTois := Finset.disjoint_left.mp h13 hn
      simp [RegState.register, hd, hn]
    · rintro rfl hn hd
      simp [RegState.register, hd, hn]
    · rintro rfl hn hc
      simp [RegState.register, hn, hc]

/-- Witness for C10 at a concrete state: id 3 in `changedTois` is moved
to `deletedTois` on a deleted registration, preserving disjointness. -/
theorem register_disjoint_witness :
    (RegState.mk {1} {3} {5}).PairwiseDisjoint ∧
    (false = false → (3 : ℕ) ∉ (RegState.mk {1} {3} {5}).deletedTois) ∧
    ((RegState.mk {1} {3} {5}).register 3 false).PairwiseDisjoint := by
  refine ⟨by decide, by decide, ?_⟩
  exact ((register_disjoint.2 (RegState.mk {1} {3} {5}) 3 false
    (by decide) (by decide)).1)

/-! ## C9 — glob compilation: consecutive asterisks -/

/-- **C9** (evaluation at the failing input).  `makeRe`'s own docstring
says `*` matches anything, and the comment on `replaceAsterisk` says it
matches a *number* of non-escaped asterisks; but after `re.escape` every
asterisk is written `\*`, and the pattern `(^|[^\\])\\\*+` can only take
the first `\*` of a run, so the second asterisk of `a**b` survives as a
literal: the compiled regex is `^a.*\*b$`, which rejects `"ab"` (any
substring between `a` and `b` must end in a literal `*`) while a single
`*` does match the empty substring. -/
theorem makeRe_consecutive_asterisks_bug :
    makeRe "a**b".data = "^a.*\\*b$".data ∧
    globSearch "a**b" "ab" = false ∧
    globSearch "a**b" "a*b" = true ∧
    globSearch "a*b" "ab" = true := by
  refine ⟨by decide, by decide, by decide, by decide⟩

/-! ## C6 — supplied read-only / computed attributes in `CreateToi` -/

/-- If the supplied attribute data contains a non-empty value for a
computed or read-only attribute, the pass rejects (with some error —
the offending attribute's runtime error, or an error raised by an
earlier entry). -/
theorem createToiFilterAux_rejects {α ε : Type} (attrs : List AttrDesc)
    (coerce : AttrDesc → α → Except ε α) :
    ∀ (attrData : List (String × List α)) (acc : List (String × List α))
      (n : String) (vs : List α) (a : AttrDesc),
      (n, vs) ∈ attrData → vs ≠ [] →
      attrs.find? (fun d => d.name = n) = some a →
      (a.computed || a.readOnly) = true →
      ∃ e, createToiFilterAux attrs coerce attrData acc = .error e := by
  intro attrData
  induction attrData with
  | nil => intro _ _ _ _ h; cases h
  | cons p rest ih =>
    intro acc n vs a hmem hvs hfind hro
    rcases List.mem_cons.mp hmem with rfl | hmem'
    · have hempty : (!vs.isEmpty) = true := by
        cases vs with
        | nil => exact absurd rfl hvs
        | cons x xs => rfl
      refine ⟨.runtimeError a.name, ?_⟩
      simp [createToiFilterAux, hfind, hro, hempty]
    · obtain ⟨m, ws⟩ := p
      cases hfindm : attrs.find? (fun d => d.name = m) with
      | none => exact ⟨.attrNameError m, by simp [createToiFilterAux, hfindm]⟩
      | some attr =>
        by_cases hrom : (attr.computed || attr.readOnly) = true
        · by_cases hws : (!ws.isEmpty) = true
          · refine ⟨.runtimeError attr.name, ?_⟩
            simp only [createToiFilterAux, hfindm]
            rw [if_pos hrom, if_pos hws]
          · obtain ⟨e, he⟩ := ih acc n vs a hmem' hvs hfind hro
            refine ⟨e, ?_⟩
            simp only [createToiFilterAux, hfindm]
            rw [if_pos hrom, if_neg hws]
            exact he
        · cases hco : coerceValueList (coerce attr) ws with
          | error es =>
            refine ⟨.valueError es, ?_⟩
            simp only [createToiFilterAux, hfindm]
            rw [if_neg hrom, hco]
          | ok v =>
            obtain ⟨e, he⟩ := ih (acc ++ [(m, v)]) n vs a hmem' hvs hfind hro
            refine ⟨e, ?_⟩
            simp only [createToiFilterAux, hfindm]
            rw [if_neg hrom, hco]
            exact he

/-- When the key `n` occurs neither in the remaining input nor in the
accumulator, it does not occur in a successful result. -/
theorem createToiFilterAux_key_absent {α ε : Type} (attrs : List AttrDesc)
    (coerce : AttrDesc → α → Except ε α) (n : String) :
    ∀ (attrData : List (String × List α)) (acc out : List (String × List α)),
      n ∉ attrData.map Prod.fst → n ∉ acc.map Prod.fst →
      createToiFilterAux attrs coerce attrData acc = .ok out →
      n ∉ out.map Prod.fst := by
  intro attrData
  induction attrData with
  | nil =>
    intro acc out _ hacc hok
    simp only [createToiFilterAux] at hok
    cases hok
    exact hacc
  | cons p rest ih =>
    intro acc out hdata hacc hok
    obtain ⟨m, ws⟩ := p
    have hmn : m ≠ n := by
      intro h; exact hdata (by simp [h])
    have hrest : n ∉ rest.map Prod.fst := by
      intro h; exact hdata (by simp [h])
    simp only [createToiFilterAux] at hok
    cases hfindm : attrs.find? (fun d => d.name = m) with
    | none => simp only [hfindm] at hok; cases hok
    | some attr =>
      simp only [hfindm] at hok
      by_cases hrom : (attr.computed || attr.readOnly) = true
      · rw [if_pos hrom] at hok
        by_cases hws : (!ws.isEmpty) = true
        · rw [if_pos hws] at hok; cases hok
        · rw [if_neg hws] at hok
          exact ih acc out hrest hacc hok
      · rw [if_neg hrom] at hok
        cases hco : coerceValueList (coerce attr) ws with
        | error es => rw [hco] at hok; cases hok
        | ok v =>
          rw [hco] at hok
          refine ih (acc ++ [(m, v)]) out hrest ?_ hok
          intro h
          rcases List.mem_map.mp h with ⟨q, hq, hqn⟩
          rcases List.mem_append.mp hq with hq' | hq'
          · exact hacc (List.mem_map.mpr ⟨q, hq', hqn⟩)
          · simp only [List.mem_singleton] at hq'
            subst hq'
            exact hmn hqn

/-- **C6, counterexample.**  The claim says a supplied read-only or
computed attribute is always rejected and never silently dropped; but a
supplied *empty* value for a read-only attribute passes the
`if self.attrData.get(attr.name):` truthiness guard and is deleted from
`attrData` without an error. -/
theorem createtoi_empty_readonly_dropped :
    createToiFilterAttrs [⟨"ro", false, true⟩]
      (fun _ v => (Except.ok v : Except Unit ℕ)) [("ro", [])] = .ok [] := rfl

/-- **C6, amended.**  In the supplied-attribute pass of
`CreateToi.operate` (`commit.py` 1273-1309), a supplied *non-empty*
(truthy) value for a read-only or computed attribute makes the
operation fail (the offending attribute raises `cRuntimeError`, unless
an earlier supplied attribute already raised); a supplied *empty*
value for such an attribute is silently deleted from the supplied
`attrData`, so it is neither accepted nor reported — whenever this
pass succeeds, no read-only or computed attribute name survives it.
(The separate fill-in loop at `commit.py` 1313-1319 afterwards re-adds
every non-computed read-only attribute with its class default, so the
*name* may still appear in the created instance, carrying the default
rather than any supplied value; this theorem is about the supplied
pass only.) -/
theorem createtoi_readonly_spec {α ε : Type} (attrs : List AttrDesc)
    (coerce : AttrDesc → α → Except ε α) (attrData : List (String × List α))
    (n : String) (vs : List α) (a : AttrDesc)
    (hmem : (n, vs) ∈ attrData)
    (hfind : attrs.find? (fun d => d.name = n) = some a)
    (hro : (a.computed || a.readOnly) = true) :
    (vs ≠ [] → ∃ e, createToiFilterAttrs attrs coerce attrData = .error e) ∧
    (∀ out, createToiFilterAttrs attrs coerce attrData = .ok out →
      (attrData.map Prod.fst).Nodup → n ∉ out.map Prod.fst) := by
  constructor
  · intro hvs
    exact createToiFilterAux_rejects attrs coerce attrData [] n vs a hmem hvs hfind hro
  · intro out hok hnodup
    -- split the input at the (unique) entry named `n`
    rcases List.mem_iff_append.mp hmem with ⟨before, after, rfl⟩
    have hnbefore : n ∉ before.map Prod.fst := by
      intro hb
      have : (before.map Prod.fst ++ (n :: after.map Prod.fst)).Nodup := by
        simpa using hnodup
      rcases List.nodup_append.mp this with ⟨-, -, hdisj⟩
      exact hdisj hb (by simp)
    have hnafter : n ∉ after.map Prod.fst := by
      have : (before.map Prod.fst ++ (n :: after.map Prod.fst)).Nodup := by
        simpa using hnodup
      rcases List.nodup_append.mp this with ⟨-, hcons, -⟩
      exact (List.nodup_cons.mp hcons).1
    -- walk the prefix: the accumulator never gains key `n`
    clear hmem hnodup
    revert hok
    unfold createToiFilterAttrs
    generalize hacc : ([] : List (String × List α)) = acc
    have haccn : n ∉ acc.map Prod.fst := by rw [← hacc]; simp
    clear hacc
    induction before generalizing acc with
    | nil =>
      intro hok
      simp only [List.nil_append] at hok
      simp only [createToiFilterAux, hfind] at hok
      rw [if_pos hro] at hok
      by_cases hvs : (!vs.isEmpty) = true
      · rw [if_pos hvs] at hok; cases hok
      · rw [if_neg hvs] at hok
        exact createToiFilterAux_key_absent attrs coerce n after acc out hnafter haccn hok
    | cons p rest ih =>
      intro hok
      obtain ⟨m, ws⟩ := p
      have hmn : m ≠ n := by
        intro h; exact hnbefore (by simp [h])
      have hrest : n ∉ rest.map Prod.fst := by
        intro h; exact hnbefore (by simp [h])
      simp only [List.cons_append, createToiFilterAux] at hok
      cases hfindm : attrs.find? (fun d => d.name = m) with
      | none => simp only [hfindm] at hok; cases hok
      | some attr =>
        simp only [hfindm] at hok
        by_cases hrom : (attr.computed || attr.readOnly) = true
        · rw [if_pos hrom] at hok
          by_cases hws : (!ws.isEmpty) = true
          · rw [if_pos hws] at hok; cases hok
          · rw [if_neg hws] at hok
            exact ih hrest acc haccn hok
        · rw [if_neg hrom] at hok
          cases hco : coerceValueList (coerce attr) ws with
          | error es => rw [hco] at hok; cases hok
          | ok v =>
            rw [hco] at hok
            refine ih hrest (acc ++ [(m, v)]) ?_ hok
            intro h
            rcases List.mem_map.mp h with ⟨q, hq, hqn⟩
            rcases List.mem_append.mp hq with hq' | hq'
            · exact haccn (List.mem_map.mpr ⟨q, hq', hqn⟩)
            · simp only [List.mem_singleton] at hq'
              subst hq'
              exact hmn hqn

/-- Witness for C6 (amended): a read-only attribute supplied with a
non-empty value is rejected, and one supplied with an empty value is
absent from the successful result. -/
theorem createtoi_readonly_spec_witness :
    (∃ e, createToiFilterAttrs [⟨"ro", false, true⟩]
      (fun _ v => (Except.ok v : Except Unit ℕ)) [("ro", [7])] = .error e) ∧
    ¬ "ro" ∈ (([] : List (String × List ℕ)).map Prod.fst) := by
  constructor
  · exact (createtoi_readonly_spec [⟨"ro", false, true⟩]
      (fun _ v => (Except.ok v : Except Unit ℕ)) [("ro", [7])] "ro" [7]
      ⟨"ro", false, true⟩ (by simp) (by rfl) (by rfl)).1 (by simp)
  · exact (createtoi_readonly_spec [⟨"ro", false, true⟩]
      (fun _ v => (Except.ok v : Except Unit ℕ)) [("ro", [])] "ro" []
      ⟨"ro", false, true⟩ (by simp) (by rfl) (by rfl)).2 [] rfl (by simp)

/-! ## C3 — lock discipline of a commit attempt -/

/-- After `_unlockTois` no document is held by `ctx`. -/
theorem unlockTois_clears {β : Type} (ctx : ℕ) (st : ToiStore β) :
    ∀ d ∈ unlockTois ctx st, d.handledBy ≠ some ctx := by
  intro d hd
  rcases List.mem_map.mp hd with ⟨d₀, _, rfl⟩
  by_cases h : d₀.handledBy = some ctx
  · simp [h]
  · simp [h]

/-- **C3.**  At the end of any single commit attempt — success,
`CommitConflict` or `ToisLocked` from the lock phase, a conflict found
by the baseline check, a bulk-write error, or any other mid-body error —
no document in the instance collection has `_handled_by` equal to the
committing context's id: the `finally` clause runs `_unlockTois` on
every exit path. -/
theorem commitAttempt_unlocks {β : Type} (ctx : ℕ) (affected : List ℕ)
    (conflict : Bool) (newDocs : List (ToiDoc β)) (setAttrs : ℕ → β → β)
    (changedIds deletedIds : List ℕ) (bulkErr otherErr : Bool)
    (store : ToiStore β) :
    ∀ d ∈ (commitAttempt ctx affected conflict newDocs setAttrs changedIds
        deletedIds bulkErr otherErr store).2,
      d.handledBy ≠ some ctx := by
  unfold commitAttempt
  rcases hl : lockTois ctx affected store with ⟨res, st'⟩
  cases res with
  | error e => simpa using unlockTois_clears ctx st'
  | ok u =>
    cases u
    cases hb : commitBody conflict newDocs setAttrs changedIds deletedIds
        bulkErr otherErr st' with
    | error e => simp only [hb]; exact unlockTois_clears ctx st'
    | ok final => simp only [hb]; exact unlockTois_clears ctx final

/-- Witness for C3: a two-document store (one already locked by a
different worker, triggering `ToisLocked`) ends the attempt with no
document handled by context 1. -/
theorem commitAttempt_unlocks_witness :
    (commitAttempt 1 [10, 11] false [] (fun _ b => b) [10] [] false false
        [⟨10, (0 : ℕ), none⟩, ⟨11, 0, some 2⟩]).2 =
      [⟨10, 0, none⟩, ⟨11, 0, some 2⟩] ∧
    (⟨10, (0 : ℕ), none⟩ : ToiDoc ℕ).handledBy ≠ some 1 := by
  refine ⟨by rfl, ?_⟩
  exact commitAttempt_unlocks 1 [10, 11] false [] (fun _ b => b) [10] [] false false
    [⟨10, (0 : ℕ), none⟩, ⟨11, 0, some 2⟩] ⟨10, 0, none⟩ (by decide)

/-! ## C4 — conflict retry protocol -/

/-- **C4.**  On `CommitConflict` the engine replays via `rerunCommit`:
the old commit record is deleted from the `commits` collection and the
exact same operation list is rerun in a fresh commit context with the
generation counter incremented by 1; a commit whose generation exceeds
the cap of 5 raises `Timeout` instead of being replayed (and
`processCommits` propagates it). -/
theorem rerun_commit_spec {op ρ ε : Type} (exec : List op → Except ε (List ρ))
    (freshCtx freshCommit : ℕ) (db : List (CommitRec op ρ ε))
    (c : CommitRec op ρ ε) :
    (c.generation > 5 →
      rerunCommit exec freshCtx freshCommit db c = .error .timeout) ∧
    (c.generation ≤ 5 →
      rerunCommit exec freshCtx freshCommit db c =
        .ok (db.filter (fun r => r.id ≠ c.id),
          runCommitRecord exec freshCtx freshCommit c.user c.operations
            c.interested (c.generation + 1))) ∧
    (∀ results, exec c.operations = .ok results →
      (runCommitRecord exec freshCtx freshCommit c.user c.operations
          c.interested (c.generation + 1)).operations = c.operations ∧
      (runCommitRecord exec freshCtx freshCommit c.user c.operations
          c.interested (c.generation + 1)).generation = c.generation + 1) ∧
    (∀ (attempt : CommitRec op ρ ε → AttemptOutcome) (fresh : ℕ → ℕ × ℕ)
        (hr : CommitRec op ρ ε → Bool) (s : PCState op ρ ε),
      s.cur = some c → attempt c = .conflict →
      (c.generation ≤ 5 →
        processCommitsStep attempt exec fresh hr s =
          .next { s with
            cur := some (runCommitRecord exec (fresh s.rr).1 (fresh s.rr).2
              c.user c.operations c.interested (c.generation + 1)),
            db := s.db.filter (fun r => r.id ≠ c.id),
            rr := s.rr + 1 }) ∧
      (c.generation > 5 →
        processCommitsStep attempt exec fresh hr s = .timeout)) := by
  refine ⟨?_, ?_, ?_, ?_⟩
  · intro h
    simp [rerunCommit, h]
  · intro h
    simp [rerunCommit, Nat.not_lt.mpr h]
  · intro results hexec
    simp [runCommitRecord, hexec, createCommit]
  · intro attempt fresh hr s hcur hatt
    constructor
    · intro hgen
      simp only [processCommitsStep, hcur, hatt]
      rw [show rerunCommit exec (fresh s.rr).1 (fresh s.rr).2 s.db c =
        .ok (s.db.filter (fun r => r.id ≠ c.id),
          runCommitRecord exec (fresh s.rr).1 (fresh s.rr).2 c.user c.operations
            c.interested (c.generation + 1)) by
          simp [rerunCommit, Nat.not_lt.mpr hgen]]
    · intro hgen
      simp only [processCommitsStep, hcur, hatt]
      rw [show rerunCommit exec (fresh s.rr).1 (fresh s.rr).2 s.db c =
        .error .timeout by simp [rerunCommit, hgen]]

/-- Witness for C4: a conflicting commit at generation 2 is replayed as
generation 3 with its operations intact and its record removed; one at
generation 6 times out. -/
theorem rerun_commit_spec_witness :
    (rerunCommit (fun ops => Except.ok (ε := Unit) ops) 100 101
        [⟨7, none, [1, 2], 0, none, 2, [], none, .new⟩]
        ⟨7, none, [1, 2], 0, none, 2, [], none, .new⟩ =
      .ok ([], ⟨101, some 100, [1, 2], 0, none, 3, [1, 2], none, .new⟩)) ∧
    (rerunCommit (fun ops => Except.ok (ε := Unit) ops) 100 101 []
        ⟨8, none, [1, 2], 0, none, 6, [], none, .new⟩ = .error .timeout) := by
  constructor
  · have := (rerun_commit_spec (fun ops => Except.ok (ε := Unit) ops) 100 101
      [⟨7, none, [1, 2], 0, none, 2, [], none, .new⟩]
      ⟨7, none, [1, 2], 0, none, 2, [], none, .new⟩).2.1 (by decide)
    rw [this]
    rfl
  · exact (rerun_commit_spec (fun ops => Except.ok (ε := Unit) ops) 100 101 []
      ⟨8, none, [1, 2], 0, none, 6, [], none, .new⟩).1 (by decide)

/-! ## C8 — `Query.mongo` translation -/

/-- **C8.**  `Query.mongo()` (i) translates an `Empty` condition on an
attribute into a predicate accepting null, the empty list and the empty
map — for a toi-reference attribute the `.id` path suffix is stripped
again so the whole stored sequence is tested; (ii) combines two or more
condition groups as a top-level `$or` disjunction, while a single group
is merged into the top-level document; (iii) always adds the ancestor
filter `{'_bases': {'$in': [tocName]}}` except when the queried class is
the root class `TO` (the hypothesis that no group produces a `_bases`
key of its own holds whenever no attribute is named `_bases`). -/
theorem query_mongo_spec :
    (∀ (n : String) (coerce : MVal → Option MVal),
      (".id".data.isSuffixOf n.data) = false →
      filterMop (.plain n coerce) QOp.opEmpty.mongo =
        (n, .mdoc [("$in", .mlist [.mnull, .mlist [], .mdoc []])])) ∧
    (∀ n : String,
      filterMop (.toiref n) QOp.opEmpty.mongo =
        (n, .mdoc [("$in", .mlist [.mnull, .mlist [], .mdoc []])])) ∧
    (∀ q : QueryM, 2 ≤ q.cgs.length →
      dget (queryMongo q) "$or" =
        some (.mlist ((q.cgs.map translateGroup).map MVal.mdoc))) ∧
    (∀ (q : QueryM) (cg : CondGroup), q.cgs = [cg] →
      queryMongo q =
        dupdate
          (if q.tocName ≠ "TO" then
            [("_bases", .mdoc [("$in", .mlist [.mstr q.tocName])])]
          else [])
          (translateGroup cg)) ∧
    (∀ q : QueryM,
      (∀ cg ∈ q.cgs, dhas (translateGroup cg) "_bases" = false) →
      (q.tocName ≠ "TO" →
        dget (queryMongo q) "_bases" =
          some (.mdoc [("$in", .mlist [.mstr q.tocName])])) ∧
      (q.tocName = "TO" → dget (queryMongo q) "_bases" = none)) := by
  refine ⟨?_, ?_, ?_, ?_, ?_⟩
  · intro n coerce h
    simp only [QOp.mongo, filterMop, coerceMop, fixSpecial, List.map]
    simp +decide [isValueOp, dget, dhas, ddel, dset, h]
  · intro n
    have hdata : (n ++ ".id").data = n.data ++ ".id".data := by
      simp
    have hsuffix : (".id".data.isSuffixOf (n ++ ".id").data) = true := by
      rw [hdata]
      simp [List.isSuffixOf]
    have htake : (n ++ ".id").data.take ((n ++ ".id").data.length - 3) = n.data := by
      rw [hdata]
      have : (n.data ++ ".id".data).length - 3 = n.data.length := by
        simp
      rw [this, List.take_left]
    simp only [QOp.mongo, filterMop, coerceMop, fixSpecial, List.map]
    simp +decide [isValueOp, dget, dhas, ddel, dset, hsuffix, htake]
  · intro q hlen
    unfold queryMongo
    rw [if_pos (by simpa using hlen)]
    exact dget_dset_self _ _ _
  · intro q cg hcg
    unfold queryMongo
    rw [hcg]
    rfl
  · intro q hgroups
    constructor
    · intro hne
      unfold queryMongo
      rw [if_pos hne]
      by_cases hlen : (q.cgs.map translateGroup).length > 1
      · rw [if_pos hlen, dget_dset_ne _ _ _ _ (by decide)]
        simp [dget]
      · rw [if_neg hlen]
        cases hcgs : q.cgs with
        | nil => simp [dget]
        | cons g rest =>
          cases rest with
          | nil =>
            simp only [List.map]
            rw [dget_dupdate_of_not_mem _ _ _ (hgroups g (by simp [hcgs]))]
            simp [dget]
          | cons g2 rest2 => simp [hcgs] at hlen
    · intro hto
      unfold queryMongo
      have hnot : ¬(q.tocName ≠ "TO") := by simp [hto]
      rw [if_neg hnot]
      by_cases hlen : (q.cgs.map translateGroup).length > 1
      · rw [if_pos hlen, dget_dset_ne _ _ _ _ (by decide)]
        rfl
      · rw [if_neg hlen]
        cases hcgs : q.cgs with
        | nil => rfl
        | cons g rest =>
          cases rest with
          | nil =>
            simp only [List.map]
            rw [dget_dupdate_of_not_mem _ _ _ (hgroups g (by simp [hcgs]))]
            rfl
          | cons g2 rest2 => simp [hcgs] at hlen

/-- Witness for C8 at a concrete two-group query on class `App.Test`:
the `Empty` condition on attribute `name` becomes
`{'$in': [None, [], {}]}`, the two groups land under `$or`, and the
`_bases` ancestor filter is present; the same single-group query on the
root class `TO` carries no `_bases` filter. -/
theorem query_mongo_spec_witness :
    filterMop (.plain "name" (fun _ => none)) QOp.opEmpty.mongo =
      ("name", .mdoc [("$in", .mlist [.mnull, .mlist [], .mdoc []])]) ∧
    dget (queryMongo ⟨"App.Test",
        [[(.plain "name" (fun _ => none), [.opEmpty])],
         [(.idKey, [.opIn [.moid 5]])]]⟩) "_bases" =
      some (.mdoc [("$in", .mlist [.mstr "App.Test"])]) ∧
    dget (queryMongo ⟨"App.Test",
        [[(.plain "name" (fun _ => none), [.opEmpty])],
         [(.idKey, [.opIn [.moid 5]])]]⟩) "$or" =
      some (.mlist
        [.mdoc [("name", .mdoc [("$in", .mlist [.mnull, .mlist [], .mdoc []])])],
         .mdoc [("_id", .mdoc [("$in", .mlist [.moid 5])])]]) ∧
    dget (queryMongo ⟨"TO",
        [[(.plain "name" (fun _ => none), [.opEmpty])]]⟩) "_bases" = none := by
  refine ⟨?_, ?_, ?_, ?_⟩
  · exact (query_mongo_spec.1 "name" (fun _ => none) (by decide))
  · exact ((query_mongo_spec.2.2.2.2 ⟨"App.Test",
      [[(.plain "name" (fun _ => none), [.opEmpty])],
       [(.idKey, [.opIn [.moid 5]])]]⟩
      (by intro cg hcg
          rcases List.mem_cons.mp hcg with rfl | hcg
          · rfl
          · rcases List.mem_cons.mp hcg with rfl | hcg
            · rfl
            · cases hcg)).1 (by decide))
  · have := query_mongo_spec.2.2.1 ⟨"App.Test",
      [[(.plain "name" (fun _ => none), [.opEmpty])],
       [(.idKey, [.opIn [.moid 5]])]]⟩ (by decide)
    rw [this]
    rfl
  · exact ((query_mongo_spec.2.2.2.2 ⟨"TO",
      [[(.plain "name" (fun _ => none), [.opEmpty])]]⟩
      (by intro cg hcg
          rcases List.mem_cons.mp hcg with rfl | hcg
          · rfl
          · cases hcg)).2 rfl)

/-! ## C2 — diff opcodes -/

section DifflibProofs

variable {α : Type} [DecidableEq α]

omit [DecidableEq α] in
theorem isSome_get?_lt (l : List α) (n : ℕ) (h : (l[n]?).isSome) :
    n < l.length := by
  by_contra hn
  rw [List.getElem?_eq_none (by omega)] at h
  cases h

omit [DecidableEq α] in
/-- The inner loop of `find_longest_match` preserves row validity for
the row being built and best-candidate validity. -/
theorem flmInner_ok (a b : List α) (alo blo bhi i ahi : ℕ)
    (hialo : alo ≤ i) (hi : i < ahi)
    (j2len : ℕ → ℕ) (hj2 : RowOk a b alo blo bhi i j2len) :
    ∀ (js : List ℕ) (newj2len : ℕ → ℕ) (best : ℕ × ℕ × ℕ),
      (∀ j ∈ js, b[j]? = a[i]? ∧ (a[i]?).isSome) →
      RowOk a b alo blo bhi (i + 1) newj2len →
      ValidBest a b alo ahi blo bhi best →
      RowOk a b alo blo bhi (i + 1)
        (flmInner j2len i blo bhi js newj2len best).1 ∧
      ValidBest a b alo ahi blo bhi
        (flmInner j2len i blo bhi js newj2len best).2 := by
  intro js
  induction js with
  | nil =>
    intro newj2len best _ hnew hbest
    exact ⟨hnew, hbest⟩
  | cons j js ih =>
    intro newj2len best hjs hnew hbest
    have hjhead := hjs j (List.mem_cons_self j js)
    have hjtail : ∀ j' ∈ js, b[j']? = a[i]? ∧ (a[i]?).isSome :=
      fun j' hj' => hjs j' (List.mem_cons_of_mem _ hj')
    by_cases hjlo : j < blo
    · simp only [flmInner, if_pos hjlo]
      exact ih newj2len best hjtail hnew hbest
    · by_cases hjhi : j ≥ bhi
      · simp only [flmInner, if_neg hjlo, if_pos hjhi]
        exact ⟨hnew, hbest⟩
      · simp only [flmInner, if_neg hjlo, if_neg hjhi]
        push_neg at hjlo hjhi
        have hia : i < a.length := isSome_get?_lt a i hjhead.2
        have hjb : j < b.length := isSome_get?_lt b j (by
          rw [hjhead.1]; exact hjhead.2)
        -- the new entry records a genuine match ending at (i, j)
        have hentry : ∃ i0 j0,
            i0 + ((if j = 0 then 0 else j2len (j - 1)) + 1) = i + 1 ∧
            j0 + ((if j = 0 then 0 else j2len (j - 1)) + 1) = j + 1 ∧
            alo ≤ i0 ∧ blo ≤ j0 ∧
            MatchAt a b i0 j0 ((if j = 0 then 0 else j2len (j - 1)) + 1) := by
          by_cases hk0 : (if j = 0 then 0 else j2len (j - 1)) = 0
          · refine ⟨i, j, by omega, by omega, hialo, hjlo, ?_⟩
            rw [hk0]
            refine ⟨by omega, by omega, ?_⟩
            intro t ht
            interval_cases t
            simpa using hjhead.1.symm
          · have hjne : j ≠ 0 := by
              intro h; rw [if_pos h] at hk0; exact hk0 rfl
            rw [if_neg hjne] at hk0 ⊢
            obtain ⟨i0, j0, hi0, hj0, hi0lo, hj0lo, -, hmatch⟩ :=
              hj2 (j - 1) (by omega)
            refine ⟨i0, j0, by omega, by omega, hi0lo, hj0lo, ?_⟩
            obtain ⟨hma, hmb, hmt⟩ := hmatch
            refine ⟨by omega, by omega, ?_⟩
            intro t ht
            by_cases htk : t < j2len (j - 1)
            · exact hmt t htk
            · have ht' : t = j2len (j - 1) := by omega
              subst ht'
              have h1 : i0 + j2len (j - 1) = i := hi0
              have h2 : j0 + j2len (j - 1) = j := by omega
              rw [h1, h2]
              exact hjhead.1.symm
        apply ih
        · exact hjtail
        · intro j' hj'
          by_cases hjj : j' = j
          · subst hjj
            simp only [if_pos rfl] at hj' ⊢
            obtain ⟨i0, j0, h1, h2, h3, h4, h5⟩ := hentry
            exact ⟨i0, j0, h1, h2, h3, h4, by omega, h5⟩
          · simp only [if_neg hjj] at hj' ⊢
            exact hnew j' hj'
        · by_cases hbig :
              (if j = 0 then 0 else j2len (j - 1)) + 1 > best.2.2
          · rw [if_pos hbig]
            obtain ⟨i0, j0, h1, h2, h3, h4, h5⟩ := hentry
            have hieq : i + 1 - ((if j = 0 then 0 else j2len (j - 1)) + 1) = i0 := by
              omega
            have hjeq : j + 1 - ((if j = 0 then 0 else j2len (j - 1)) + 1) = j0 := by
              omega
            rw [hieq, hjeq]
            refine ⟨h3, h4, ?_, ?_, h5⟩
            · show i0 + ((if j = 0 then 0 else j2len (j - 1)) + 1) ≤ ahi
              omega
            · show j0 + ((if j = 0 then 0 else j2len (j - 1)) + 1) ≤ bhi
              omega
          · rw [if_neg hbig]
            exact hbest

/-- The outer loop of `find_longest_match` preserves best validity. -/
theorem flmOuter_ok (a b : List α) (alo blo bhi ahi : ℕ) :
    ∀ (n i₀ : ℕ) (j2len : ℕ → ℕ) (best : ℕ × ℕ × ℕ),
      alo ≤ i₀ → i₀ + n ≤ ahi →
      RowOk a b alo blo bhi i₀ j2len →
      ValidBest a b alo ahi blo bhi best →
      ValidBest a b alo ahi blo bhi
        (flmOuter a b blo bhi (List.range' i₀ n) j2len best) := by
  intro n
  induction n with
  | zero => intro i₀ j2len best _ _ _ hbest; exact hbest
  | succ n ih =>
    intro i₀ j2len best hlo hhi hrow hbest
    rw [List.range'_succ]
    simp only [flmOuter]
    have hstep := flmInner_ok a b alo blo bhi i₀ ahi hlo (by omega) j2len hrow
    cases hget : a[i₀]? with
    | none =>
      have h := hstep [] (fun _ => 0) best (by intro j hj; cases hj)
        (by intro j hj; simp at hj) hbest
      exact ih (i₀ + 1) _ _ (by omega) (by omega) h.1 h.2
    | some x =>
      have h := hstep (b2j b x) (fun _ => 0) best
        (by
          intro j hj
          simp only [b2j] at hj
          by_cases hp : isPopular b x
          · rw [if_pos hp] at hj; cases hj
          · rw [if_neg hp] at hj
            simp only [b2jAll, List.mem_filter, List.mem_range] at hj
            refine ⟨?_, ?_⟩
            · rw [hget]
              exact of_decide_eq_true hj.2
            · rw [hget]; rfl)
        (by intro j hj; simp at hj) hbest
      exact ih (i₀ + 1) _ _ (by omega) (by omega) h.1 h.2

/-- The left extension loop preserves best validity. -/
theorem extendLeft_valid (a b : List α) (alo blo ahi bhi : ℕ) :
    ∀ (fuel : ℕ) (best : ℕ × ℕ × ℕ),
      ValidBest a b alo ahi blo bhi best →
      ValidBest a b alo ahi blo bhi (extendLeft a b alo blo fuel best) := by
  intro fuel
  induction fuel with
  | zero => intro best hbest; exact hbest
  | succ fuel ih =>
    intro best hbest
    obtain ⟨bi, bj, sz⟩ := best
    simp only [extendLeft]
    by_cases hcond : bi > alo ∧ bj > blo ∧
        (a[bi - 1]?).isSome ∧ a[bi - 1]? = b[bj - 1]?
    · rw [if_pos hcond]
      apply ih
      have hbest' : alo ≤ bi ∧ blo ≤ bj ∧ bi + sz ≤ ahi ∧ bj + sz ≤ bhi ∧
          MatchAt a b bi bj sz := hbest
      obtain ⟨h1, h2, h3, h4, hia, hib, hit⟩ := hbest'
      obtain ⟨hbi, hbj, hsome, heq⟩ := hcond
      have hlt : bi - 1 < a.length := isSome_get?_lt a _ hsome
      have hltb : bj - 1 < b.length := isSome_get?_lt b _ (by rw [← heq]; exact hsome)
      refine ⟨?_, ?_, ?_, ?_, ?_, ?_, ?_⟩
      · show alo ≤ bi - 1
        omega
      · show blo ≤ bj - 1
        omega
      · show bi - 1 + (sz + 1) ≤ ahi
        omega
      · show bj - 1 + (sz + 1) ≤ bhi
        omega
      · show bi - 1 + (sz + 1) ≤ a.length
        omega
      · show bj - 1 + (sz + 1) ≤ b.length
        omega
      intro t ht
      cases t with
      | zero => simpa using heq
      | succ t =>
        have := hit t (by simpa using ht)
        have ha1 : bi - 1 + (t + 1) = bi + t := by omega
        have hb1 : bj - 1 + (t + 1) = bj + t := by omega
        rw [ha1, hb1]
        exact this
    · rw [if_neg hcond]
      exact hbest

/-- The right extension loop preserves best validity. -/
theorem extendRight_valid (a b : List α) (alo blo ahi bhi : ℕ) :
    ∀ (fuel : ℕ) (best : ℕ × ℕ × ℕ),
      ValidBest a b alo ahi blo bhi best →
      ValidBest a b alo ahi blo bhi (extendRight a b ahi bhi fuel best) := by
  intro fuel
  induction fuel with
  | zero => intro best hbest; exact hbest
  | succ fuel ih =>
    intro best hbest
    obtain ⟨bi, bj, sz⟩ := best
    simp only [extendRight]
    by_cases hcond : bi + sz < ahi ∧ bj + sz < bhi ∧
        (a[bi + sz]?).isSome ∧ a[bi + sz]? = b[bj + sz]?
    · rw [if_pos hcond]
      apply ih
      have hbest' : alo ≤ bi ∧ blo ≤ bj ∧ bi + sz ≤ ahi ∧ bj + sz ≤ bhi ∧
          MatchAt a b bi bj sz := hbest
      obtain ⟨h1, h2, h3, h4, hia, hib, hit⟩ := hbest'
      obtain ⟨hbi, hbj, hsome, heq⟩ := hcond
      have hlt : bi + sz < a.length := isSome_get?_lt a _ hsome
      have hltb : bj + sz < b.length := isSome_get?_lt b _ (by rw [← heq]; exact hsome)
      refine ⟨h1, h2, ?_, ?_, ?_, ?_, ?_⟩
      · show bi + (sz + 1) ≤ ahi
        omega
      · show bj + (sz + 1) ≤ bhi
        omega
      · show bi + (sz + 1) ≤ a.length
        omega
      · show bj + (sz + 1) ≤ b.length
        omega
      intro t ht
      by_cases htk : t < sz
      · exact hit t htk
      · have ht' : t = sz := by simp at ht; omega
        subst ht'
        exact heq
    · rw [if_neg hcond]
      exact hbest

/-- `find_longest_match` returns a genuine match inside its region. -/
theorem flm_valid (a b : List α) (alo ahi blo bhi : ℕ)
    (h1 : alo ≤ ahi) (h2 : blo ≤ bhi) (h3 : ahi ≤ a.length)
    (h4 : bhi ≤ b.length) :
    ValidBest a b alo ahi blo bhi (find_longest_match a b alo ahi blo bhi) := by
  unfold find_longest_match
  apply extendRight_valid
  apply extendLeft_valid
  apply flmOuter_ok a b alo blo bhi ahi (ahi - alo) alo (fun _ => 0)
    (alo, blo, 0) le_rfl (by omega)
  · intro j hj; simp at hj
  · refine ⟨le_rfl, le_rfl, ?_, ?_, ?_, ?_, ?_⟩
    · show alo + 0 ≤ ahi
      omega
    · show blo + 0 ≤ bhi
      omega
    · show alo + 0 ≤ a.length
      omega
    · show blo + 0 ≤ b.length
      omega
    · intro t ht
      simp at ht

omit [DecidableEq α] in
/-- Two adjacent matches merge into one. -/
theorem matchAt_glue (a b : List α) {i j k i2 j2 k2 : ℕ}
    (h1 : MatchAt a b i j k) (h2 : MatchAt a b i2 j2 k2)
    (hi : i2 = i + k) (hj : j2 = j + k) : MatchAt a b i j (k + k2) := by
  obtain ⟨ha1, hb1, ht1⟩ := h1
  obtain ⟨ha2, hb2, ht2⟩ := h2
  refine ⟨by omega, by omega, ?_⟩
  intro t ht
  by_cases htk : t < k
  · exact ht1 t htk
  · have := ht2 (t - k) (by omega)
    rw [hi, hj] at this
    have hA : i + k + (t - k) = i + t := by omega
    have hB : j + k + (t - k) = j + t := by omega
    rw [hA, hB] at this
    exact this

omit [DecidableEq α] in
/-- Concatenate a staircase in front of a block and a trailing
staircase. -/
theorem staircase_glue (a b : List α) :
    ∀ (left : List (ℕ × ℕ × ℕ)) (alo blo i j k : ℕ)
      (rest : List (ℕ × ℕ × ℕ)) (hiA hiB : ℕ),
      Staircase a b i j alo blo left → MatchAt a b i j k →
      Staircase a b hiA hiB (i + k) (j + k) rest →
      Staircase a b hiA hiB alo blo (left ++ (i, j, k) :: rest) := by
  intro left
  induction left with
  | nil =>
    intro alo blo i j k rest hiA hiB hl hm hr
    obtain ⟨h1, h2⟩ := hl
    exact ⟨h1, h2, hm, hr⟩
  | cons blk xs ih =>
    intro alo blo i j k rest hiA hiB hl hm hr
    obtain ⟨i', j', k'⟩ := blk
    obtain ⟨h1, h2, h3, h4⟩ := hl
    exact ⟨h1, h2, h3, ih _ _ i j k rest hiA hiB h4 hm hr⟩

/-- The region recursion produces a staircase of genuine matches. -/
theorem blocksRec_staircase (a b : List α) :
    ∀ (fuel alo ahi blo bhi : ℕ),
      alo ≤ ahi → blo ≤ bhi → ahi ≤ a.length → bhi ≤ b.length →
      Staircase a b ahi bhi alo blo
        (matchingBlocksRec a b fuel alo ahi blo bhi) := by
  intro fuel
  induction fuel with
  | zero =>
    intro alo ahi blo bhi h1 h2 _ _
    exact ⟨h1, h2⟩
  | succ fuel ih =>
    intro alo ahi blo bhi h1 h2 h3 h4
    simp only [matchingBlocksRec]
    have hv := flm_valid a b alo ahi blo bhi h1 h2 h3 h4
    obtain ⟨hv1, hv2, hv3, hv4, hvm⟩ := hv
    set m := find_longest_match a b alo ahi blo bhi with hm
    obtain ⟨i, j, k⟩ := m
    simp only at hv1 hv2 hv3 hv4 hvm ⊢
    by_cases hk : k = 0
    · rw [if_pos hk]
      exact ⟨h1, h2⟩
    · rw [if_neg hk]
      have hright : Staircase a b ahi bhi (i + k) (j + k)
          (if i + k < ahi ∧ j + k < bhi then
            matchingBlocksRec a b fuel (i + k) ahi (j + k) bhi
          else []) := by
        by_cases hg : i + k < ahi ∧ j + k < bhi
        · rw [if_pos hg]
          exact ih (i + k) ahi (j + k) bhi (by omega) (by omega) h3 h4
        · rw [if_neg hg]
          exact ⟨hv3, hv4⟩
      by_cases hgl : alo < i ∧ blo < j
      · rw [if_pos hgl, List.append_assoc, List.singleton_append]
        exact staircase_glue a b _ alo blo i j k _ ahi bhi
          (ih alo i blo j (by omega) (by omega) (by omega) (by omega))
          hvm hright
      · rw [if_neg hgl, List.nil_append, List.singleton_append]
        exact staircase_glue a b [] alo blo i j k _ ahi bhi ⟨hv1, hv2⟩ hvm hright

omit [DecidableEq α] in
/-- The adjacent-block collapse of `get_matching_blocks` preserves the
staircase shape. -/
theorem collapse_staircase (a b : List α) (hiA hiB : ℕ) :
    ∀ (blocks : List (ℕ × ℕ × ℕ)) (i1 j1 k1 i0 j0 : ℕ),
      i0 ≤ i1 → j0 ≤ j1 → MatchAt a b i1 j1 k1 →
      Staircase a b hiA hiB (i1 + k1) (j1 + k1) blocks →
      Staircase a b hiA hiB i0 j0 (collapseBlocks (i1, j1, k1) blocks) := by
  intro blocks
  induction blocks with
  | nil =>
    intro i1 j1 k1 i0 j0 h0a h0b hm hst
    obtain ⟨hA, hB⟩ := hst
    simp only [collapseBlocks]
    by_cases hk : k1 ≠ 0
    · rw [if_pos hk]
      exact ⟨h0a, h0b, hm, by omega, by omega⟩
    · rw [if_neg hk]
      exact ⟨by omega, by omega⟩
  | cons blk rest ih =>
    intro i1 j1 k1 i0 j0 h0a h0b hm hst
    obtain ⟨i2, j2, k2⟩ := blk
    obtain ⟨hA, hB, hm2, hst'⟩ := hst
    simp only [collapseBlocks]
    by_cases hadj : i1 + k1 = i2 ∧ j1 + k1 = j2
    · rw [if_pos hadj]
      have hmerged : MatchAt a b i1 j1 (k1 + k2) :=
        matchAt_glue a b hm hm2 hadj.1.symm hadj.2.symm
      have hst'' : Staircase a b hiA hiB (i1 + (k1 + k2)) (j1 + (k1 + k2)) rest := by
        have e1 : i1 + (k1 + k2) = i2 + k2 := by omega
        have e2 : j1 + (k1 + k2) = j2 + k2 := by omega
        rw [e1, e2]
        exact hst'
      exact ih i1 j1 (k1 + k2) i0 j0 h0a h0b hmerged hst''
    · rw [if_neg hadj]
      by_cases hk : k1 ≠ 0
      · rw [if_pos hk, List.singleton_append]
        exact ⟨h0a, h0b, hm, ih i2 j2 k2 (i1 + k1) (j1 + k1) hA hB hm2 hst'⟩
      · rw [if_neg hk]
        simp only [List.nil_append]
        exact ih i2 j2 k2 i0 j0 (by omega) (by omega) hm2 hst'

omit [DecidableEq α] in
/-- Appending the `(la, lb, 0)` sentinel keeps the staircase shape. -/
theorem staircase_snoc_sentinel (a b : List α) :
    ∀ (blocks : List (ℕ × ℕ × ℕ)) (i0 j0 : ℕ),
      Staircase a b a.length b.length i0 j0 blocks →
      Staircase a b a.length b.length i0 j0
        (blocks ++ [(a.length, b.length, 0)]) := by
  intro blocks
  induction blocks with
  | nil =>
    intro i0 j0 h
    obtain ⟨h1, h2⟩ := h
    exact ⟨h1, h2, ⟨by omega, by omega, by intro t ht; omega⟩, by omega, by omega⟩
  | cons blk rest ih =>
    intro i0 j0 h
    obtain ⟨i, j, k⟩ := blk
    obtain ⟨h1, h2, h3, h4⟩ := h
    exact ⟨h1, h2, h3, ih _ _ h4⟩

omit [DecidableEq α] in
theorem endA_snoc (x y k : ℕ) :
    ∀ (blocks : List (ℕ × ℕ × ℕ)) (i0 : ℕ),
      endA i0 (blocks ++ [(x, y, k)]) = x + k := by
  intro blocks
  induction blocks with
  | nil => intro i0; rfl
  | cons blk rest ih =>
    intro i0
    obtain ⟨i, j, kk⟩ := blk
    simp only [List.cons_append, endA]
    exact ih _

omit [DecidableEq α] in
theorem endB_snoc (x y k : ℕ) :
    ∀ (blocks : List (ℕ × ℕ × ℕ)) (j0 : ℕ),
      endB j0 (blocks ++ [(x, y, k)]) = y + k := by
  intro blocks
  induction blocks with
  | nil => intro j0; rfl
  | cons blk rest ih =>
    intro j0
    obtain ⟨i, j, kk⟩ := blk
    simp only [List.cons_append, endB]
    exact ih _

/-- `get_matching_blocks` yields a staircase over the full sequences,
walking out exactly at `(len(a), len(b))` thanks to the sentinel. -/
theorem gmb_staircase (a b : List α) :
    Staircase a b a.length b.length 0 0 (get_matching_blocks a b) ∧
    endA 0 (get_matching_blocks a b) = a.length ∧
    endB 0 (get_matching_blocks a b) = b.length := by
  refine ⟨?_, ?_, ?_⟩
  · unfold get_matching_blocks
    apply staircase_snoc_sentinel
    apply collapse_staircase a b a.length b.length _ 0 0 0 0 0 le_rfl le_rfl
    · exact ⟨by omega, by omega, by intro t ht; omega⟩
    · simpa using blocksRec_staircase a b (a.length + b.length + 1) 0 a.length
        0 b.length (by omega) (by omega) le_rfl le_rfl
  · unfold get_matching_blocks
    simpa using endA_snoc a.length b.length 0 _ 0
  · unfold get_matching_blocks
    simpa using endB_snoc a.length b.length 0 _ 0

omit [DecidableEq α] in
/-- A match gives slice equality: `a[i:i+k] = b[j:j+k]`. -/
theorem matchSegment (a b : List α) {i j k : ℕ} (h : MatchAt a b i j k) :
    (a.drop i).take k = (b.drop j).take k := by
  obtain ⟨ha, hb, hpt⟩ := h
  apply List.ext_getElem?
  intro n
  by_cases hn : n < k
  · rw [List.getElem?_take_of_lt hn, List.getElem?_take_of_lt hn,
      List.getElem?_drop, List.getElem?_drop]
    exact hpt n hn
  · have h1 : ((a.drop i).take k).length ≤ n := by
      simp only [List.length_take, List.length_drop]
      omega
    have h2 : ((b.drop j).take k).length ≤ n := by
      simp only [List.length_take, List.length_drop]
      omega
    rw [List.getElem?_eq_none h1, List.getElem?_eq_none h2]

omit [DecidableEq α] in
/-- One gap step of `apply_opcodes`: splicing `b[j0:bj]` over `a[i0:ai]`
in the hybrid state advances both cursors. -/
theorem applyStep_gap (a b : List α) (i0 j0 ai bj : ℕ)
    (h0a : i0 ≤ ai) (h0b : j0 ≤ bj) (hbj : bj ≤ b.length) :
    applyStep (b.take j0 ++ a.drop i0, (j0 : ℤ) - (i0 : ℤ))
      (i0, ai, (b.drop j0).take (bj - j0))
    = (b.take bj ++ a.drop ai, (bj : ℤ) - (ai : ℤ)) := by
  unfold applyStep
  simp only
  have hl : ((i0 : ℤ) + ((j0 : ℤ) - (i0 : ℤ))).toNat = j0 := by omega
  have hr : ((ai : ℤ) + ((j0 : ℤ) - (i0 : ℤ))).toNat = j0 + (ai - i0) := by omega
  rw [hl, hr]
  have hlen : (b.take j0).length = j0 := by
    simp only [List.length_take]
    omega
  have hdl : ((b.drop j0).take (bj - j0)).length = bj - j0 := by
    simp only [List.length_take, List.length_drop]
    omega
  simp only [Prod.mk.injEq]
  constructor
  · rw [List.take_left' hlen]
    rw [show j0 + (ai - i0) = (b.take j0).length + (ai - i0) by rw [hlen],
      List.drop_append, List.drop_drop,
      show i0 + (ai - i0) = ai by omega,
      ← List.take_add,
      show j0 + (bj - j0) = bj by omega]
  · rw [hdl]
    omega

omit [DecidableEq α] in
/-- Walking over an `equal` block leaves the hybrid state unchanged. -/
theorem state_shift (a b : List α) {ai bj sz : ℕ} (h : MatchAt a b ai bj sz) :
    b.take (bj + sz) ++ a.drop (ai + sz) = b.take bj ++ a.drop ai := by
  have hseg := matchSegment a b h
  rw [List.take_add, ← hseg, List.append_assoc, ← List.drop_drop,
    List.take_append_drop]

omit [DecidableEq α] in
/-- Folding `applyStep` over the non-equal opcodes of a staircase
carries the hybrid state `b[:j] ++ a[i:]` from cursor `(i0, j0)` to the
final cursor of the blocks. -/
theorem applyBlocks (a b : List α) :
    ∀ (blocks : List (ℕ × ℕ × ℕ)) (i0 j0 : ℕ),
      Staircase a b a.length b.length i0 j0 blocks →
      List.foldl applyStep (b.take j0 ++ a.drop i0, (j0 : ℤ) - (i0 : ℤ))
        (List.filterMap
          (fun op => if op.tag = Tag.equal then none
            else some (op.a1, op.a2, (b.drop op.b1).take (op.b2 - op.b1)))
          (opcodesFromBlocks i0 j0 blocks))
      = (b.take (endB j0 blocks) ++ a.drop (endA i0 blocks),
        ((endB j0 blocks : ℤ) - (endA i0 blocks : ℤ))) := by
  intro blocks
  induction blocks with
  | nil =>
    intro i0 j0 _
    rfl
  | cons blk rest ih =>
    intro i0 j0 hst
    obtain ⟨ai, bj, sz⟩ := blk
    obtain ⟨h0a, h0b, hm, hst'⟩ := hst
    have hmb : bj + sz ≤ b.length := hm.2.1
    simp only [opcodesFromBlocks, List.filterMap_append, List.foldl_append,
      endA, endB]
    have heqnil : List.filterMap
        (fun op => if op.tag = Tag.equal then none
          else some (op.a1, op.a2, (b.drop op.b1).take (op.b2 - op.b1)))
        (if sz ≠ 0 then [(⟨Tag.equal, ai, ai + sz, bj, bj + sz⟩ : Opcode)]
        else []) = [] := by
      split_ifs <;> simp
    rw [heqnil, List.foldl_nil]
    have hgapfold : List.foldl applyStep
        (b.take j0 ++ a.drop i0, (j0 : ℤ) - (i0 : ℤ))
        (List.filterMap
          (fun op => if op.tag = Tag.equal then none
            else some (op.a1, op.a2, (b.drop op.b1).take (op.b2 - op.b1)))
          (if i0 < ai ∧ j0 < bj then [(⟨Tag.replace, i0, ai, j0, bj⟩ : Opcode)]
          else if i0 < ai then [(⟨Tag.delete, i0, ai, j0, bj⟩ : Opcode)]
          else if j0 < bj then [(⟨Tag.insert, i0, ai, j0, bj⟩ : Opcode)]
          else []))
        = (b.take bj ++ a.drop ai, (bj : ℤ) - (ai : ℤ)) := by
      by_cases hc1 : i0 < ai ∧ j0 < bj
      · rw [if_pos hc1]
        simp only [List.filterMap_cons, List.filterMap_nil]
        rw [if_neg (by simp)]
        rw [List.foldl_cons, List.foldl_nil]
        exact applyStep_gap a b i0 j0 ai bj h0a h0b (by omega)
      · rw [if_neg hc1]
        by_cases hc2 : i0 < ai
        · rw [if_pos hc2]
          simp only [List.filterMap_cons, List.filterMap_nil]
          rw [if_neg (by simp)]
          rw [List.foldl_cons, List.foldl_nil]
          exact applyStep_gap a b i0 j0 ai bj h0a h0b (by omega)
        · rw [if_neg hc2]
          by_cases hc3 : j0 < bj
          · rw [if_pos hc3]
            simp only [List.filterMap_cons, List.filterMap_nil]
            rw [if_neg (by simp)]
            rw [List.foldl_cons, List.foldl_nil]
            exact applyStep_gap a b i0 j0 ai bj h0a h0b (by omega)
          · rw [if_neg hc3]
            simp only [List.filterMap_nil, List.foldl_nil]
            have hia : i0 = ai := by omega
            have hjb : j0 = bj := by omega
            rw [hia, hjb]
    rw [hgapfold]
    have hstate : ((b.take bj ++ a.drop ai : List α), ((bj : ℤ) - (ai : ℤ)))
        = (b.take (bj + sz) ++ a.drop (ai + sz),
          (((bj + sz : ℕ) : ℤ) - ((ai + sz : ℕ) : ℤ))) := by
      rw [state_shift a b hm]
      simp only [Prod.mk.injEq]
      refine ⟨trivial, by push_cast; ring⟩
    rw [hstate]
    exact ih (ai + sz) (bj + sz) hst'

/-- C2: for arbitrary finite sequences `old` and `new`, applying the
opcode list produced by `diff_opcodes old new` to `old` with
`apply_opcodes` — processing the `(start, end, replacement)` triples
left to right while maintaining a running offset — yields exactly
`new`. -/
theorem diff_apply_roundtrip (old new : List α) :
    apply_opcodes old (diff_opcodes old new) = new := by
  obtain ⟨hst, hA, hB⟩ := gmb_staircase old new
  unfold apply_opcodes diff_opcodes get_opcodes
  have happ := applyBlocks old new (get_matching_blocks old new) 0 0 hst
  have h0 : (new.take 0 ++ old.drop 0 : List α) = old := by simp
  have h0' : ((0 : ℕ) : ℤ) - ((0 : ℕ) : ℤ) = 0 := by simp
  rw [h0, h0'] at happ
  rw [happ, hA, hB, List.take_length, List.drop_length, List.append_nil]

end DifflibProofs

/-- C1: counterexample.  Starting from a symmetric, duplicate-free
world — toi 1 with `r = [2]`, toi 2 with `s = [1]`, both relation
attributes non-weak — the commit
`[ChangeToi(1, r := []), ChangeToi(2, s := [1, 1])]` runs the full
relation machinery without error and without deleting any toi (so the
deleted-referent check of `validateAttrValues` never fires), yet the
final state has `toi2.s = [1]` while `toi1.r = []`: toi 1 is a live
element of the live toi 2's relation `s` whose counterpart `r` does
not hold the back-link.  The duplicate-introducing change is invisible
to the set-based diff of `updateRelations` (`[1, 1]` against the saved
original `[1]` adds and removes nothing), each removal strips a single
occurrence (`list.remove`), and the final strip is an implicit
rollback that deletes `toi2.s`'s `_orgAttrData` entry, so the
changed-toi fix-up loop skips toi 2 and never restores the back-link.
The claimed invariant fails after a successful commit. -/
theorem relation_fixup_counterexample :
    ∃ c, relScenario = Except.ok c ∧ c.weakR = false ∧ c.weakS = false ∧
      (∀ t ∈ c.world, t.deleted = false) ∧ ¬ RelInvariant c :=
  ⟨{ world := [⟨1, false, ⟨[], some [2]⟩, ⟨[], none⟩⟩,
               ⟨2, false, ⟨[], none⟩, ⟨[1], none⟩⟩],
     newTois := [], changedTois := [1, 2], deletedTois := [],
     weakR := false, weakS := false },
   by decide, rfl, rfl, by decide, by decide⟩

end PyTransact




